import Mathlib

/-!
liboauth: a shallow embedding of `src/oauth.c`.

Bytes are natural numbers below 256; a C string is the list of its bytes up to
(not including) the terminating NUL; a possibly-NULL `char *` is an
`Option (List Nat)`.  Every definition below carries the name of the C
function it is translated from.
-/

namespace OAuth

/-! ## C library helpers -/

/-- The bytes of a C string stored in `mem`: everything before the first NUL
(the end of the list also terminates the string). -/
def cstr : List Nat → List Nat
  | [] => []
  | b :: bs => if b = 0 then [] else b :: cstr bs

/-- Model of `strlen`: the number of bytes before the first NUL. -/
def strlen (mem : List Nat) : Nat := (cstr mem).length

/-- The bytes of an ASCII string literal of the source. -/
def lit (s : String) : List Nat := s.toList.map Char.toNat

/-! ## Base64 (oauth.c lines 44-162) -/

/-- Translation of `oauth_b64_encode` (oauth.c:44). -/
def oauth_b64_encode (u : Nat) : Nat :=
  if u < 26 then 65 + u
  else if u < 52 then 97 + (u - 26)
  else if u < 62 then 48 + (u - 52)
  else if u = 62 then 43
  else 47

/-- Translation of `oauth_b64_decode` (oauth.c:55). -/
def oauth_b64_decode (c : Nat) : Nat :=
  if 65 ≤ c ∧ c ≤ 90 then c - 65
  else if 97 ≤ c ∧ c ≤ 122 then c - 97 + 26
  else if 48 ≤ c ∧ c ≤ 57 then c - 48 + 52
  else if c = 43 then 62
  else 63

/-- Translation of `oauth_b64_is_base64` (oauth.c:66). -/
def oauth_b64_is_base64 (c : Nat) : Bool :=
  (65 ≤ c ∧ c ≤ 90) ∨ (97 ≤ c ∧ c ≤ 122) ∨ (48 ≤ c ∧ c ≤ 57) ∨ c = 43 ∨ c = 47 ∨ c = 61

/-- The `for(i=0; i<size; i+=3)` loop of `oauth_encode_base64`
(oauth.c:92-111) from index `i` on, returning the characters stored through
`p`.  `src` is the memory readable at the pointer; the argument before `i`
bounds the number of passes. -/
def encode_loop (size : Nat) (src : List Nat) : Nat → Nat → List Nat
  | 0, _ => []
  | fuel + 1, i =>
    if i < size then
      let b1 := src.getD i 0
      let b2 := if i + 1 < size then src.getD (i + 1) 0 else 0
      let b3 := if i + 2 < size then src.getD (i + 2) 0 else 0
      let b4 := b1 >>> 2
      let b5 := (((b1 &&& 0x3) <<< 4) ||| (b2 >>> 4)) % 256
      let b6 := (((b2 &&& 0xf) <<< 2) ||| (b3 >>> 6)) % 256
      let b7 := b3 &&& 0x3f
      [oauth_b64_encode b4, oauth_b64_encode b5,
        (if i + 1 < size then oauth_b64_encode b6 else 61),
        (if i + 2 < size then oauth_b64_encode b7 else 61)]
        ++ encode_loop size src fuel (i + 3)
    else []

/-- The largest value of an `int` (32 bits). -/
def INT_MAX : Nat := 2147483647

/-- The buffer size `size*4/3+4` passed to `xcalloc` (oauth.c:89), an `int`
expression on the `int` variable `size`: its value when the product `size*4`
fits an `int`, `none` when that multiplication overflows (from
`size = 2^29` on). -/
def encode_alloc (size : Nat) : Option Nat :=
  if size * 4 ≤ INT_MAX then some (size * 4 / 3 + 4) else none

/-- Translation of `oauth_encode_base64` (oauth.c:83).  `size` is the value
of the `int` argument, a length; `src` is `none` for a NULL pointer, otherwise
the memory readable at the pointer; a `size` of zero is replaced by
`strlen(src)`.  When `size*4` overflows the `int` range the buffer is not
sized for the output and no string is returned (`none`).  The loop adds 3 to
`i` each pass, so `size` passes always suffice. -/
def oauth_encode_base64 (size : Nat) (src : Option (List Nat)) : Option (List Nat) :=
  match src with
  | none => none
  | some mem =>
    let size := if size = 0 then strlen mem else size
    match encode_alloc size with
    | none => none
    | some _ => some (encode_loop size mem size 0)

/-- The second loop of `oauth_decode_base64` (oauth.c:138-156) from index `k`
on, over the filtered buffer `buf` holding `l` characters, returning the bytes
stored through `p`; the argument before `k` bounds the number of passes (`k`
grows by 4 each pass, so `l` passes always suffice). -/
def decode_loop (buf : List Nat) (l : Nat) : Nat → Nat → List Nat
  | 0, _ => []
  | fuel + 1, k =>
    if k < l then
      let c1 := buf.getD k 0
      let c2 := if k + 1 < l then buf.getD (k + 1) 0 else 65
      let c3 := if k + 2 < l then buf.getD (k + 2) 0 else 65
      let c4 := if k + 3 < l then buf.getD (k + 3) 0 else 65
      let b1 := oauth_b64_decode c1
      let b2 := oauth_b64_decode c2
      let b3 := oauth_b64_decode c3
      let b4 := oauth_b64_decode c4
      [((b1 <<< 2) ||| (b2 >>> 4)) % 256]
        ++ (if c3 ≠ 61 then [(((b2 &&& 0xf) <<< 4) ||| (b3 >>> 2)) % 256] else [])
        ++ (if c4 ≠ 61 then [(((b3 &&& 0x3) <<< 6) ||| b4) % 256] else [])
        ++ decode_loop buf l fuel (k + 4)
    else []

/-- Translation of `oauth_decode_base64` (oauth.c:125): the pair of the bytes
stored at `dest[0 .. n)` and the returned length `n` (the code also stores a
NUL at `dest[n]`).  A NULL or empty `src` stores nothing and returns 0. -/
def oauth_decode_base64 (src : Option (List Nat)) : List Nat × Nat :=
  match src with
  | none => ([], 0)
  | some mem =>
    if cstr mem = [] then ([], 0)
    else
      let buf := (cstr mem).filter oauth_b64_is_base64
      let l := buf.length
      let out := decode_loop buf l l 0
      (out, out.length)

/-! ## Percent-encoding (oauth.c lines 172-331) -/

/-- The `case` labels of the `switch(in)` of `url_escape` (oauth.c:188-200),
in source order: the bytes copied unchanged. -/
def url_escape_case (c : Nat) : Bool :=
  c ∈ lit "0123456789abcdefghijklmnopqrstuvwxyzABCDEFGHIJKLMNOPQRSTUVWXYZ_~.-"

/-- One digit of the `%02X` conversion of `snprintf`. -/
def hexdigit (d : Nat) : Nat := if d < 10 then 48 + d else 55 + d

/-- The local variables of `url_escape`; `ns` holds the bytes stored so far at
`ns[0 .. strindex)`. -/
structure EscState where
  alloc : Nat
  newlen : Nat
  strindex : Nat
  ns : List Nat
deriving DecidableEq, Repr

/-- One pass of the `while(length--)` loop of `url_escape` (oauth.c:184-215)
on the byte `c` read from `*string`. -/
def url_escape_step (st : EscState) (c : Nat) : EscState :=
  let inb := c % 256
  if url_escape_case inb then
    { st with ns := st.ns ++ [inb], strindex := st.strindex + 1 }
  else
    let newlen := st.newlen + 2
    let alloc := if newlen > st.alloc then st.alloc * 2 else st.alloc
    { alloc := alloc, newlen := newlen,
      ns := st.ns ++ [37, hexdigit (inb / 16), hexdigit (inb % 16)],
      strindex := st.strindex + 3 }

/-- The state of `url_escape` before its loop (oauth.c:174-183). -/
def url_escape_init (string : List Nat) : EscState :=
  { alloc := strlen string + 1, newlen := strlen string + 1, strindex := 0, ns := [] }

/-- Translation of `url_escape` (oauth.c:172): a NULL argument gives the empty
string; otherwise the loop runs once per byte of the C string. -/
def url_escape (string : Option (List Nat)) : List Nat :=
  match string with
  | none => []
  | some mem => ((cstr mem).foldl url_escape_step (url_escape_init mem)).ns

/-- The variables of `url_escape` after `k` passes of its loop on the string
at `string` (the first `k` bytes read). -/
def url_escape_state (string : List Nat) (k : Nat) : EscState :=
  ((cstr string).take k).foldl url_escape_step (url_escape_init string)

/-- The `for(i=0;i<len;i++)` loop of `catenc` (oauth.c:315-328) from pass `i`
on, with `rv` the string built so far (`url_escape` never returns NULL, so the
`break` is not taken). -/
def catenc_loop : Nat → List (Option (List Nat)) → List Nat → List Nat
  | _, [], rv => rv
  | i, arg :: rest, rv =>
    let enc := url_escape arg
    catenc_loop (i + 1) rest ((if i > 0 then rv ++ [38] else rv) ++ enc)

/-- Translation of `catenc` (oauth.c:309); the variadic arguments are the list
`args` and `len` is its length. -/
def catenc (args : List (Option (List Nat))) : List Nat := catenc_loop 0 args []

/-! ## Parameter lists (oauth.c lines 336-423) -/

/-- Membership in the delimiter set `"&?"` passed to `strtok`. -/
def isDelim (c : Nat) : Bool := c = 38 ∨ c = 63

/-- Model of one `strtok` call scanning the C string `s`: skip leading
delimiters; with nothing left return `none`; otherwise return the token and
the string following the delimiter that ended it (where the next
`strtok(NULL, ..)` resumes). -/
def strtok (s : List Nat) : Option (List Nat × List Nat) :=
  let s1 := s.dropWhile isDelim
  if s1 = [] then none
  else some (s1.takeWhile (fun c => !isDelim c), (s1.dropWhile (fun c => !isDelim c)).drop 1)

/-- Model of `tolower` in the C locale. -/
def tolower (c : Nat) : Nat := if 65 ≤ c ∧ c ≤ 90 then c + 32 else c

/-- Model of `strncasecmp`: compare at most `n` bytes ignoring case, stopping
at a NUL (the end of a list). -/
def strncasecmp : List Nat → List Nat → Nat → Int
  | _, _, 0 => 0
  | s1, s2, n + 1 =>
    let c1 := tolower (s1.headD 0)
    let c2 := tolower (s2.headD 0)
    if c1 ≠ c2 then (c1 : Int) - (c2 : Int)
    else if c1 = 0 then 0
    else strncasecmp s1.tail s2.tail n

/-- The variables of the loop of `split_url_parameters`: the C string at
`tmp` (`none` once `tmp` is NULL), the string at the position saved inside
`strtok`, and the array built so far. -/
structure SplitState where
  tmp : Option (List Nat)
  saved : List Nat
  argv : List (List Nat)
deriving DecidableEq, Repr

/-- The `while((token=strtok(tmp,"&?")))` loop of `split_url_parameters`
(oauth.c:343-349), bounded by a number of passes; `none` when that many passes
do not end the loop.  A pass that takes the `continue` leaves `tmp` as it is,
and `strtok` has by then put a NUL after the token, so the string at `tmp` is
its leading delimiters followed by that token. -/
def split_loop : Nat → SplitState → Option (List (List Nat))
  | 0, _ => none
  | fuel + 1, st =>
    let s := match st.tmp with
      | some t => t
      | none => st.saved
    match strtok s with
    | none => some st.argv
    | some (token, rest) =>
      if strncasecmp (lit "oauth_signature") token 15 = 0 then
        split_loop fuel
          { tmp := st.tmp.map (fun t => t.takeWhile isDelim ++ token), saved := rest,
            argv := st.argv }
      else
        split_loop fuel { tmp := none, saved := rest, argv := st.argv ++ [token] }

/-- One pass of the loop of `split_url_parameters` (oauth.c:343-349) on its
own: `none` when `strtok` returns NULL and the loop ends, otherwise the
variables after the pass. -/
def split_pass (st : SplitState) : Option SplitState :=
  let s := match st.tmp with
    | some t => t
    | none => st.saved
  match strtok s with
  | none => none
  | some (token, rest) =>
    if strncasecmp (lit "oauth_signature") token 15 = 0 then
      some { tmp := st.tmp.map (fun t => t.takeWhile isDelim ++ token), saved := rest,
             argv := st.argv }
    else
      some { tmp := none, saved := rest, argv := st.argv ++ [token] }

/-- The state of `split_url_parameters` before its loop: `tmp` is the copy of
`url` and `*argv` is empty. -/
def split_init (url : List Nat) : SplitState :=
  { tmp := some (cstr url), saved := [], argv := [] }

/-- Translation of `split_url_parameters` (oauth.c:336) called with `*argv`
NULL: the array stored through `argv` (its length is the returned `argc`), or
`none` when the loop never ends.  A loop that ends does so within
`strlen(url) + 1` passes (`split_loop_fuel` below). -/
def split_url_parameters (url : List Nat) : Option (List (List Nat)) :=
  split_loop (strlen url + 1) (split_init url)

/-- The string built for one element by the body of the loop of
`serialize_url_parameters` (oauth.c:367-380): without a `=` a plain copy
(`xstrdup`), otherwise the escaped text before the first `=`, a `=`, and the
escaped text after it. -/
def serialize_param (arg : List Nat) : List Nat :=
  if 61 ∈ cstr arg then
    let name := (cstr arg).takeWhile (fun c => c ≠ 61)
    let value := ((cstr arg).dropWhile (fun c => c ≠ 61)).drop 1
    url_escape (some name) ++ [61] ++ url_escape (some value)
  else cstr arg

/-- The `for(i=1; i< argc; i++)` loop of `serialize_url_parameters`
(oauth.c:362-385) from pass `i` on, over the elements `argv[i ..]`. -/
def serialize_loop : Nat → List (List Nat) → List Nat → List Nat
  | _, [], query => query
  | i, arg :: rest, query =>
    serialize_loop (i + 1) rest (query ++ (if i = 1 then [] else [38]) ++ serialize_param arg)

/-- Translation of `serialize_url_parameters` (oauth.c:357); `argc` is the
length of `argv`. -/
def serialize_url_parameters (argv : List (List Nat)) : List Nat :=
  serialize_loop 1 (argv.drop 1) []

/-- Model of `strcmp`: the difference of the first bytes that differ, the end
of a list counting as the NUL. -/
def strcmp : List Nat → List Nat → Int
  | [], [] => 0
  | [], b :: _ => 0 - (b : Int)
  | a :: _, [] => (a : Int)
  | a :: s1, b :: s2 =>
    if a ≠ b then (a : Int) - (b : Int)
    else if a = 0 then 0
    else strcmp s1 s2

/-- Translation of `cmpstringp` (oauth.c:421). -/
def cmpstringp (p1 p2 : List Nat) : Int := strcmp p1 p2

/-- Insertion of one element before the first element that compares greater. -/
def qsort_insert (cmp : List Nat → List Nat → Int) (x : List Nat) :
    List (List Nat) → List (List Nat)
  | [] => [x]
  | y :: ys => if cmp x y ≤ 0 then x :: y :: ys else y :: qsort_insert cmp x ys

/-- Model of the C library's `qsort` on an array of strings: the array
rearranged into ascending order of `cmp` (computed here by insertion). -/
def qsort (cmp : List Nat → List Nat → Int) : List (List Nat) → List (List Nat)
  | [] => []
  | x :: xs => qsort_insert cmp x (qsort cmp xs)

/-- The sort step of `oauth_sign_url` (oauth.c:499),
`qsort(&argv[1], argc-1, sizeof(char *), cmpstringp)`. -/
def sort_parameters : List (List Nat) → List (List Nat)
  | [] => []
  | base :: rest => base :: qsort cmpstringp rest

/-! ## Signature methods and `oauth_sign_url` (oauth.c lines 231-293, 453-555) -/

/-- The type `OAuthMethod` of oauth.h. -/
inductive OAuthMethod where
  | OA_HMAC
  | OA_RSA
  | OA_PLAINTEXT
deriving DecidableEq, Repr

/-- What `oauth_sign_url` obtains from outside the repository: the string
returned by `gen_nonce()`, the value of `time(NULL)`, and OpenSSL's `HMAC`
with SHA-1, which for a key and a message gives the contents of the `result`
buffer and `resultlen`. -/
structure Env where
  nonce : List Nat
  now : Int
  HMAC : List Nat → List Nat → List Nat × Nat

/-- The `%li` conversion of `snprintf`. -/
def fmt_li (n : Int) : List Nat :=
  if n < 0 then 45 :: (Nat.toDigits 10 n.natAbs).map Char.toNat
  else (Nat.toDigits 10 n.toNat).map Char.toNat

/-- Model of `snprintf(oarg, 1024, ...)`: at most 1023 bytes of the formatted
text are stored in `oarg`. -/
def snprintf_oarg (text : List Nat) : List Nat := text.take 1023

/-- Translation of `oauth_sign_hmac_sha1` (oauth.c:231). -/
def oauth_sign_hmac_sha1 (env : Env) (m k : List Nat) : Option (List Nat) :=
  let r := env.HMAC (cstr k) (cstr m)
  oauth_encode_base64 r.2 (some r.1)

/-- Translation of `oauth_sign_plaintext` (oauth.c:251). -/
def oauth_sign_plaintext (_m k : List Nat) : Option (List Nat) := some (cstr k)

/-- Translation of `oauth_sign_rsa_sha1` (oauth.c:291, the branch compiled). -/
def oauth_sign_rsa_sha1 (_m _k : List Nat) : Option (List Nat) :=
  some (lit "RSA-is-not-implemented.")

/-- The name of the method written by oauth.c:491-492. -/
def method_name : OAuthMethod → List Nat
  | .OA_HMAC => lit "HMAC_SHA1"
  | .OA_RSA => lit "RSA-SHA1"
  | .OA_PLAINTEXT => lit "PLAINTEXT"

/-- The elements `oauth_sign_url` appends to `argv` with `ADD_TO_ARGV`
(oauth.c:472-496), in the order they are appended; `nonce` is the string
returned by `gen_nonce()` and `now` the value of `time(NULL)`. -/
def oauth_args (nonce : List Nat) (now : Int) (method : OAuthMethod)
    (c_key t_key : Option (List Nat)) : List (List Nat) :=
  [snprintf_oarg (lit "oauth_nonce=" ++ cstr nonce),
   snprintf_oarg (lit "oauth_timestamp=" ++ fmt_li now)]
  ++ (match t_key with
      | some t => if strlen t > 0 then [snprintf_oarg (lit "oauth_token=" ++ url_escape (some t))]
                  else []
      | none => [])
  ++ [snprintf_oarg (lit "oauth_consumer_key=" ++ url_escape c_key),
      snprintf_oarg (lit "oauth_signature_method=" ++ method_name method),
      snprintf_oarg (lit "oauth_version=1.0")]

/-- The array `argv` of `oauth_sign_url` after the sort (oauth.c:465-499);
`none` when `split_url_parameters` does not return. -/
def sign_argv (nonce : List Nat) (now : Int) (url : List Nat) (method : OAuthMethod)
    (c_key t_key : Option (List Nat)) : Option (List (List Nat)) :=
  (split_url_parameters url).map
    (fun argv => sort_parameters (argv ++ oauth_args nonce now method c_key t_key))

/-- The string `okey` of `oauth_sign_url` (oauth.c:506). -/
def sign_okey (c_secret t_secret : Option (List Nat)) : List Nat :=
  catenc [c_secret, t_secret]

/-- The string `odat` of `oauth_sign_url` (oauth.c:502-507) for the sorted
array `argv`; `argv[0]` is read as a string. -/
def sign_odat (postargs : Bool) (argv : List (List Nat)) : List Nat :=
  catenc [some (if postargs then lit "POST" else lit "GET"), some (argv.headD []),
    some (serialize_url_parameters argv)]

/-- The `switch(method)` of `oauth_sign_url` (oauth.c:512-521). -/
def sign_switch (env : Env) (method : OAuthMethod) (odat okey : List Nat) :
    Option (List Nat) :=
  match method with
  | .OA_RSA => oauth_sign_rsa_sha1 odat okey
  | .OA_PLAINTEXT => oauth_sign_plaintext odat okey
  | .OA_HMAC => oauth_sign_hmac_sha1 env odat okey

/-- The "build URL params" loop of `oauth_sign_url` (oauth.c:536-544) from
pass `i` on, over the elements `argv[i ..]`. -/
def result_loop (postargs : Bool) : Nat → List (List Nat) → List Nat → List Nat
  | _, [], result => result
  | i, arg :: rest, result =>
    let sep := if i = 0 ∨ (postargs ∧ i = 1) then []
      else if ¬ postargs ∧ i = 1 then [63] else [38]
    result_loop postargs (i + 1) rest (result ++ sep ++ cstr arg)

/-- Translation of `oauth_sign_url` (oauth.c:453): the returned string and,
when `postargs` is given, the string stored through it; `none` when the call
does not return. -/
def oauth_sign_url (env : Env) (url : List Nat) (postargs : Bool) (method : OAuthMethod)
    (c_key c_secret t_key t_secret : Option (List Nat)) :
    Option (List Nat × Option (List Nat)) :=
  match sign_argv env.nonce env.now url method c_key t_key with
  | none => none
  | some argv =>
    let okey := sign_okey c_secret t_secret
    let odat := sign_odat postargs argv
    let sign := sign_switch env method odat okey
    let senc := url_escape sign
    let argv := argv ++ [snprintf_oarg (lit "oauth_signature=" ++ senc)]
    let i0 := if postargs then 1 else 0
    let result := result_loop postargs i0 (argv.drop i0) []
    if postargs then some (cstr (argv.headD []), some result)
    else some (result, none)

/-- The element appended last to `argv` by `oauth_sign_url` (oauth.c:512-529)
for the sorted array `argv`: `oauth_signature=` followed by the escaped
signature, formatted through `oarg`. -/
def signature_arg (env : Env) (postargs : Bool) (method : OAuthMethod)
    (c_secret t_secret : Option (List Nat)) (argv : List (List Nat)) : List Nat :=
  snprintf_oarg (lit "oauth_signature=" ++
    url_escape (sign_switch env method (sign_odat postargs argv) (sign_okey c_secret t_secret)))

/-! ## Nonce (oauth.c lines 396-413) -/

/-- The string `chars` of `gen_nonce` (oauth.c:399-400). -/
def nonce_chars : List Nat :=
  lit "abcdefghijklmnopqrstuvwxyz" ++ lit "ABCDEFGHIJKLMNOPQRSTUVWXYZ" ++ lit "0123456789_"

/-- Translation of `gen_nonce` (oauth.c:396): the bytes stored at
`nc[0 .. len)` before the terminating NUL.  `RAND_MAX` is the constant of
`stdlib.h` and `rand k` the value returned by the call number `k` of `rand()`
(the first call draws the length, call `i + 1` draws `nc[i]`).  The source
computes `floor(rand()*16.0/(double)RAND_MAX)` in double precision; for
`int` values the product is exact and the rounded quotient has the same floor
as the exact one, which is the integer quotient used here. -/
def gen_nonce (RAND_MAX : Nat) (rand : Nat → Nat) : List Nat :=
  let max := strlen nonce_chars
  let len := 15 + rand 0 * 16 / RAND_MAX
  (List.range len).map (fun i => nonce_chars.getD (rand (i + 1) % max) 0)

/-! ## Reference definitions, written from the specification's words -/

/-- A C string of bytes: no NUL, every element below 256. -/
def is_cstring (s : List Nat) : Prop := ∀ b ∈ s, b ≠ 0 ∧ b < 256

instance (s : List Nat) : Decidable (is_cstring s) := by
  unfold is_cstring; infer_instance

/-- An ASCII letter, a digit, or one of `_ ~ . -`. -/
def is_unreserved (b : Nat) : Bool :=
  (65 ≤ b ∧ b ≤ 90) ∨ (97 ≤ b ∧ b ≤ 122) ∨ (48 ≤ b ∧ b ≤ 57) ∨
    b = 95 ∨ b = 126 ∨ b = 46 ∨ b = 45

/-- The uppercase hexadecimal digit of a value below 16. -/
def upper_hex (d : Nat) : Nat := (lit "0123456789ABCDEF").getD d 0

/-- The percent-encoding of one byte: itself when unreserved, otherwise `%`
and its value as two uppercase hexadecimal digits. -/
def percent_encode_byte (b : Nat) : List Nat :=
  if is_unreserved b then [b] else [37, upper_hex (b / 16), upper_hex (b % 16)]

/-- The value of a hexadecimal digit, of either case. -/
def hex_value (c : Nat) : Option Nat :=
  if 48 ≤ c ∧ c ≤ 57 then some (c - 48)
  else if 65 ≤ c ∧ c ≤ 70 then some (c - 55)
  else if 97 ≤ c ∧ c ≤ 102 then some (c - 87)
  else none

/-- The standard percent-decoder: a `%` followed by two hexadecimal digits
becomes the byte they denote, every other character is kept. -/
def percent_decode : List Nat → List Nat
  | [] => []
  | [c] => [c]
  | [c, d] => [c, d]
  | c :: h :: l :: rest =>
    if c = 37 then
      match hex_value h, hex_value l with
      | some x, some y => (16 * x + y) :: percent_decode rest
      | _, _ => c :: percent_decode (h :: l :: rest)
    else c :: percent_decode (h :: l :: rest)

/-- The non-empty maximal runs of characters other than `&` and `?` in `s`,
in order; `cur` is the run being read. -/
def url_tokens_aux : List Nat → List Nat → List (List Nat)
  | cur, [] => if cur = [] then [] else [cur]
  | cur, c :: rest =>
    if isDelim c then (if cur = [] then [] else [cur]) ++ url_tokens_aux [] rest
    else url_tokens_aux (cur ++ [c]) rest

/-- The `&`/`?`-separated tokens of a URL. -/
def url_tokens (url : List Nat) : List (List Nat) := url_tokens_aux [] (cstr url)

/-- A token whose first 15 characters are `oauth_signature`, compared without
regard to case. -/
def is_signature_token (t : List Nat) : Bool :=
  (t.take 15).map tolower = lit "oauth_signature"

/-- The text of a `name=value` token before its first `=`. -/
def param_name (a : List Nat) : List Nat := a.takeWhile (fun c => c ≠ 61)

/-- The text of a `name=value` token after its first `=`. -/
def param_value (a : List Nat) : List Nat := (a.dropWhile (fun c => c ≠ 61)).drop 1

/-- A character of the nonce alphabet `[A-Za-z0-9_]`. -/
def is_nonce_char (c : Nat) : Bool :=
  (65 ≤ c ∧ c ≤ 90) ∨ (97 ≤ c ∧ c ≤ 122) ∨ (48 ≤ c ∧ c ≤ 57) ∨ c = 95

/-- The standard base64 alphabet `A-Z a-z 0-9 + /`, in the order of its
6-bit values. -/
def b64_alphabet : List Nat :=
  lit "ABCDEFGHIJKLMNOPQRSTUVWXYZabcdefghijklmnopqrstuvwxyz0123456789+/"

/-- The alphabet entry of a 6-bit value. -/
def b64_char (v : Nat) : Nat := b64_alphabet.getD v 0

/-- The RFC 4648 encoding: each group of three bytes, taken as a 24-bit
number, gives the alphabet entries of its four 6-bit slices; a final group of
one or two bytes is filled with zero bits and ends in `==` or `=`. -/
def rfc4648_encode : List Nat → List Nat
  | [] => []
  | [b1] =>
    let v := b1 * 65536
    [b64_char (v / 262144 % 64), b64_char (v / 4096 % 64), 61, 61]
  | [b1, b2] =>
    let v := b1 * 65536 + b2 * 256
    [b64_char (v / 262144 % 64), b64_char (v / 4096 % 64), b64_char (v / 64 % 64), 61]
  | b1 :: b2 :: b3 :: rest =>
    let v := b1 * 65536 + b2 * 256 + b3
    [b64_char (v / 262144 % 64), b64_char (v / 4096 % 64), b64_char (v / 64 % 64),
      b64_char (v % 64)] ++ rfc4648_encode rest

/-- One of the characters `A-Z a-z 0-9 + / =`. -/
def is_base64_char (c : Nat) : Bool :=
  c ∈ lit "ABCDEFGHIJKLMNOPQRSTUVWXYZabcdefghijklmnopqrstuvwxyz0123456789+/="

/-- A token key that is neither NULL nor empty. -/
def has_token_key (t_key : Option (List Nat)) : Bool :=
  match t_key with
  | some t => cstr t ≠ []
  | none => false

/-! ## Base64 round trip -/

theorem b64_decode_encode : ∀ u < 64, oauth_b64_decode (oauth_b64_encode u) = u := by decide

theorem b64_encode_ne_pad : ∀ u < 64, oauth_b64_encode u ≠ 61 := by decide

theorem b64_encode_is_base64 (u : Nat) : oauth_b64_is_base64 (oauth_b64_encode u) = true := by
  unfold oauth_b64_encode oauth_b64_is_base64
  split_ifs <;> simp <;> omega

theorem b64_encode_ne_zero (u : Nat) : oauth_b64_encode u ≠ 0 := by
  unfold oauth_b64_encode
  split_ifs <;> omega

theorem shl_lor (a b k : Nat) (h : b < 2 ^ k) : a <<< k ||| b = a * 2 ^ k + b := by
  rw [Nat.shiftLeft_eq, Nat.mul_comm a, Nat.mul_add_lt_is_or h]

theorem land_3 (x : Nat) : x &&& 3 = x % 4 := Nat.and_pow_two_sub_one_eq_mod x 2
theorem land_15 (x : Nat) : x &&& 15 = x % 16 := Nat.and_pow_two_sub_one_eq_mod x 4
theorem land_63 (x : Nat) : x &&& 63 = x % 64 := Nat.and_pow_two_sub_one_eq_mod x 6

theorem enc_b5 (b1 b2 : Nat) (h2 : b2 < 256) :
    (((b1 &&& 0x3) <<< 4) ||| (b2 >>> 4)) % 256 = (b1 % 4) * 16 + b2 / 16 := by
  rw [land_3, Nat.shiftRight_eq_div_pow, shl_lor _ _ 4 (by norm_num; omega)]
  norm_num; omega

theorem enc_b6 (b2 b3 : Nat) (h3 : b3 < 256) :
    (((b2 &&& 0xf) <<< 2) ||| (b3 >>> 6)) % 256 = (b2 % 16) * 4 + b3 / 64 := by
  rw [land_15, Nat.shiftRight_eq_div_pow, shl_lor _ _ 2 (by norm_num; omega)]
  norm_num; omega

theorem dec_b1 (x y : Nat) (hx : x < 64) (hy : y < 64) :
    ((x <<< 2) ||| (y >>> 4)) % 256 = x * 4 + y / 16 := by
  rw [Nat.shiftRight_eq_div_pow, shl_lor _ _ 2 (by norm_num; omega)]
  norm_num; omega

theorem dec_b2 (y z : Nat) (hz : z < 64) :
    (((y &&& 0xf) <<< 4) ||| (z >>> 2)) % 256 = (y % 16) * 16 + z / 4 := by
  rw [land_15, Nat.shiftRight_eq_div_pow, shl_lor _ _ 4 (by norm_num; omega)]
  norm_num; omega

theorem dec_b3 (z w : Nat) (hw : w < 64) :
    (((z &&& 0x3) <<< 6) ||| w) % 256 = (z % 4) * 64 + w := by
  rw [land_3, shl_lor _ _ 6 (by norm_num; omega)]
  norm_num; omega

theorem take_drop_step (mem : List Nat) (n i : Nat) (hn : n ≤ mem.length) (hi : i < n) :
    (mem.take n).drop i = mem.getD i 0 :: (mem.take n).drop (i + 1) := by
  have hlen : i < (mem.take n).length := by simp; omega
  rw [List.drop_eq_getElem_cons hlen]
  congr 1
  rw [List.getElem_take, List.getD_eq_getElem?_getD, List.getElem?_eq_getElem (by omega)]
  rfl

theorem take_drop_nil (mem : List Nat) (n i : Nat) (hi : n ≤ i) :
    (mem.take n).drop i = [] := by
  apply List.drop_eq_nil_of_le
  simp; omega

theorem decode_loop_nil (buf : List Nat) (k g : Nat) (h : buf.drop k = []) :
    decode_loop buf buf.length g k = [] := by
  have hk : buf.length ≤ k := List.drop_eq_nil_iff.mp h
  cases g with
  | zero => rfl
  | succ g => simp [decode_loop]; omega

theorem decode_loop_step (buf : List Nat) (k g c1 c2 c3 c4 : Nat) (rest : List Nat)
    (h : buf.drop k = c1 :: c2 :: c3 :: c4 :: rest) :
    decode_loop buf buf.length (g + 1) k =
      [((oauth_b64_decode c1 <<< 2) ||| (oauth_b64_decode c2 >>> 4)) % 256]
        ++ (if c3 ≠ 61 then
              [(((oauth_b64_decode c2 &&& 0xf) <<< 4) ||| (oauth_b64_decode c3 >>> 2)) % 256]
            else [])
        ++ (if c4 ≠ 61 then
              [(((oauth_b64_decode c3 &&& 0x3) <<< 6) ||| oauth_b64_decode c4) % 256]
            else [])
        ++ decode_loop buf buf.length g (k + 4) := by
  have hlen : (buf.drop k).length = 4 + rest.length := by rw [h]; simp; omega
  rw [List.length_drop] at hlen
  have e : ∀ j, buf.getD (k + j) 0 = (c1 :: c2 :: c3 :: c4 :: rest).getD j 0 := by
    intro j
    rw [← h, List.getD_eq_getElem?_getD, List.getD_eq_getElem?_getD, List.getElem?_drop]
  have e0 := e 0
  have e1 := e 1
  have e2 := e 2
  have e3 := e 3
  simp only [Nat.add_zero, List.getD_cons_zero, List.getD_cons_succ] at e0 e1 e2 e3
  have h0 : k < buf.length := by omega
  have h1 : k + 1 < buf.length := by omega
  have h2 : k + 2 < buf.length := by omega
  have h3 : k + 3 < buf.length := by omega
  simp only [decode_loop, h0, h1, h2, h3, if_true, e0, e1, e2, e3]

theorem roundtrip_loop (mem : List Nat) (n : Nat) (hb : ∀ b ∈ mem, b < 256)
    (hn : n ≤ mem.length) :
    ∀ fuel i, n - i ≤ fuel → ∀ buf k g, buf.drop k = encode_loop n mem fuel i →
      buf.length - k ≤ g → decode_loop buf buf.length g k = (mem.take n).drop i := by
  have hget : ∀ j, mem.getD j 0 < 256 := by
    intro j
    rw [List.getD_eq_getElem?_getD]
    cases hj : mem[j]? with
    | none => simp
    | some v => exact hb v (List.getElem?_mem hj)
  intro fuel
  induction fuel with
  | zero =>
    intro i hi buf k g h _
    rw [take_drop_nil mem n i (by omega)]
    exact decode_loop_nil buf k g (by simpa [encode_loop] using h)
  | succ fuel ih =>
    intro i hi buf k g h hg
    by_cases hin : i < n
    · rw [encode_loop, if_pos hin] at h
      simp only [List.cons_append, List.nil_append] at h
      have hlen : (buf.drop k).length ≥ 4 := by rw [h]; simp
      rw [List.length_drop] at hlen
      obtain ⟨g, rfl⟩ : ∃ g', g = g' + 1 := ⟨g - 1, by omega⟩
      rw [decode_loop_step buf k g _ _ _ _ _ h]
      have hrest : buf.drop (k + 4) = encode_loop n mem fuel (i + 3) := by
        have := congrArg (List.drop 4) h
        simpa [List.drop_drop, Nat.add_comm] using this
      rw [ih (i + 3) (by omega) buf (k + 4) g hrest (by omega)]
      have hb1 := hget i
      have hb2 := hget (i + 1)
      have hb3 := hget (i + 2)
      rw [take_drop_step mem n i hn hin]
      by_cases h1 : i + 1 < n
      · rw [take_drop_step mem n (i + 1) hn h1]
        by_cases h2 : i + 2 < n
        · simp only [h1, h2, if_true]
          rw [enc_b5 _ _ hb2, enc_b6 _ _ hb3, land_63, Nat.shiftRight_eq_div_pow]
          rw [b64_decode_encode _ (by omega), b64_decode_encode _ (by omega),
            b64_decode_encode _ (by omega), b64_decode_encode _ (by omega)]
          rw [if_pos (b64_encode_ne_pad _ (by omega)), if_pos (b64_encode_ne_pad _ (by omega))]
          rw [dec_b1 _ _ (by omega) (by omega), dec_b2 _ _ (by omega), dec_b3 _ _ (by omega)]
          rw [take_drop_step mem n (i + 2) hn h2]
          simp only [List.cons_append, List.nil_append]
          refine congrArg₂ _ (by omega) (congrArg₂ _ (by omega) (congrArg₂ _ (by omega) rfl))
        · simp only [h1, h2, if_true, if_false]
          rw [enc_b5 _ _ hb2, enc_b6 _ _ (by norm_num), Nat.shiftRight_eq_div_pow]
          rw [b64_decode_encode _ (by omega), b64_decode_encode _ (by omega),
            b64_decode_encode _ (by omega)]
          rw [if_pos (b64_encode_ne_pad _ (by omega)), if_neg (by simp)]
          rw [dec_b1 _ _ (by omega) (by omega), dec_b2 _ _ (by omega)]
          rw [take_drop_nil mem n (i + 1 + 1) (by omega), take_drop_nil mem n (i + 3) (by omega)]
          simp only [List.cons_append, List.nil_append, List.append_nil]
          refine congrArg₂ _ (by omega) (congrArg₂ _ (by omega) rfl)
      · have h2 : ¬ i + 2 < n := by omega
        simp only [h1, h2, if_false]
        rw [enc_b5 _ _ (by norm_num), Nat.shiftRight_eq_div_pow]
        rw [b64_decode_encode _ (by omega), b64_decode_encode _ (by omega)]
        rw [if_neg (by simp), if_neg (by simp)]
        rw [dec_b1 _ _ (by omega) (by omega)]
        rw [take_drop_nil mem n (i + 1) (by omega), take_drop_nil mem n (i + 3) (by omega)]
        simp only [List.cons_append, List.nil_append, List.append_nil]
        refine congrArg₂ _ (by omega) rfl
    · rw [take_drop_nil mem n i (by omega)]
      exact decode_loop_nil buf k g (by simpa [encode_loop, hin] using h)

theorem cstr_of_ne_zero (l : List Nat) (h : ∀ c ∈ l, c ≠ 0) : cstr l = l := by
  induction l with
  | nil => rfl
  | cons a l ih =>
    have ha : a ≠ 0 := h a (List.mem_cons_self _ _)
    simp [cstr, ha, ih (fun c hc => h c (List.mem_cons_of_mem _ hc))]

theorem encode_loop_mem (size : Nat) (src : List Nat) :
    ∀ fuel i, ∀ c ∈ encode_loop size src fuel i, oauth_b64_is_base64 c = true ∧ c ≠ 0 := by
  intro fuel
  induction fuel with
  | zero => intro i c hc; simp [encode_loop] at hc
  | succ fuel ih =>
    intro i c hc
    rw [encode_loop] at hc
    split_ifs at hc <;>
      simp only [List.cons_append, List.nil_append, List.mem_cons, List.not_mem_nil] at hc
    all_goals
      rcases hc with h | h | h | h | h
      all_goals first
        | (subst h; exact ⟨b64_encode_is_base64 _, b64_encode_ne_zero _⟩)
        | (subst h; exact ⟨by decide, by decide⟩)
        | exact ih _ c h

theorem oauth_encode_base64_of_fit (mem : List Nat) (n : Nat)
    (h0 : n ≠ 0 ∨ strlen mem = 0) (hsz : n * 4 < 2 ^ 31) :
    oauth_encode_base64 n (some mem) = some (encode_loop n mem n 0) := by
  have hsize : (if n = 0 then strlen mem else n) = n := by
    rcases h0 with h | h
    · simp [h]
    · split_ifs with hz
      · omega
      · rfl
  have halloc : encode_alloc n = some (n * 4 / 3 + 4) := by
    unfold encode_alloc INT_MAX
    rw [if_pos (by omega)]
  simp only [oauth_encode_base64, hsize, halloc]

/-- C1 (amended). Base64 round trip: when the first `n` bytes of the memory at
`src` are encoded with `oauth_encode_base64`, `n` is not zero (or `n` is zero
and `src` points at a NUL, so that the `strlen` taken for a zero size is zero
too) and `n` is below `2^29` (so that the `int` product `size*4` does not
overflow), `oauth_decode_base64` applied to the returned text stores exactly
those `n` bytes and returns `n`. -/
theorem base64_roundtrip (mem : List Nat) (n : Nat) (hb : ∀ b ∈ mem, b < 256)
    (hn : n ≤ mem.length) (h0 : n ≠ 0 ∨ strlen mem = 0) (hsz : n * 4 < 2 ^ 31) :
    oauth_decode_base64 (oauth_encode_base64 n (some mem)) = (mem.take n, n) := by
  rw [oauth_encode_base64_of_fit mem n h0 hsz]
  simp only [oauth_decode_base64]
  have hmem := encode_loop_mem n mem n 0
  rw [cstr_of_ne_zero _ (fun c hc => (hmem c hc).2)]
  have hfilter : (encode_loop n mem n 0).filter oauth_b64_is_base64 = encode_loop n mem n 0 :=
    List.filter_eq_self.mpr (fun c hc => (hmem c hc).1)
  rw [hfilter]
  have hrt := roundtrip_loop mem n hb hn n 0 (by omega) (encode_loop n mem n 0) 0
    (encode_loop n mem n 0).length (by simp) (by omega)
  rw [hrt, List.drop_zero]
  split_ifs with hnil
  · have hz : n = 0 := by
      by_contra hne
      obtain ⟨m, rfl⟩ : ∃ m, n = m + 1 := ⟨n - 1, by omega⟩
      simp [encode_loop] at hnil
    subst hz
    simp
  · simp [hn]

/-- C1 witness: the two bytes `ab` taken from the memory `abc`. -/
theorem base64_roundtrip_witness :
    (∀ b ∈ lit "abc", b < 256) ∧ 2 ≤ (lit "abc").length ∧ (2 ≠ 0 ∨ strlen (lit "abc") = 0) ∧
      2 * 4 < 2 ^ 31 ∧
      oauth_decode_base64 (oauth_encode_base64 2 (some (lit "abc"))) = ((lit "abc").take 2, 2) :=
  ⟨by decide, by decide, by decide, by decide,
    base64_roundtrip (lit "abc") 2 (by decide) (by decide) (by decide) (by decide)⟩

/-- C1 counterexample: the empty byte sequence at the start of the memory
`abc` (size 0) is encoded as the string `abc`, so decoding the result stores
three bytes and returns 3, not zero bytes and 0. -/
theorem base64_roundtrip_counterexample :
    oauth_encode_base64 0 (some (lit "abc")) = some (lit "YWJj") ∧
      oauth_decode_base64 (oauth_encode_base64 0 (some (lit "abc"))) = (lit "abc", 3) ∧
      oauth_decode_base64 (oauth_encode_base64 0 (some (lit "abc")))
        ≠ ((lit "abc").take 0, 0) := by
  decide

/-! ## Percent-encoding -/

theorem url_escape_case_eq : ∀ b < 256, url_escape_case b = is_unreserved b := by decide!

theorem hexdigit_eq : ∀ d < 16, hexdigit d = upper_hex d := by decide

theorem hex_value_upper_hex : ∀ d < 16, hex_value (upper_hex d) = some d := by decide

theorem is_unreserved_ne : ∀ b < 256, is_unreserved b = true → b ≠ 37 ∧ b ≠ 61 ∧ b ≠ 0 := by
  decide!

theorem upper_hex_ne : ∀ d < 16, upper_hex d ≠ 0 ∧ upper_hex d ≠ 61 := by decide

theorem url_escape_step_ns (st : EscState) (b : Nat) (hb : b < 256) :
    (url_escape_step st b).ns = st.ns ++ percent_encode_byte b := by
  have h16 : b / 16 < 16 := by omega
  have h16m : b % 16 < 16 := by omega
  unfold url_escape_step percent_encode_byte
  simp only [Nat.mod_eq_of_lt hb, url_escape_case_eq b hb]
  split_ifs
  · rfl
  · simp [hexdigit_eq _ h16, hexdigit_eq _ h16m]
  · simp [hexdigit_eq _ h16, hexdigit_eq _ h16m]

theorem url_escape_foldl_ns (l : List Nat) (hl : ∀ b ∈ l, b < 256) :
    ∀ st : EscState, (l.foldl url_escape_step st).ns = st.ns ++ l.flatMap percent_encode_byte := by
  induction l with
  | nil => intro st; simp
  | cons b l ih =>
    intro st
    rw [List.foldl_cons, ih (fun c hc => hl c (List.mem_cons_of_mem _ hc)),
      url_escape_step_ns st b (hl b (List.mem_cons_self _ _))]
    simp [List.flatMap_cons]

theorem cstr_of_is_cstring (S : List Nat) (hS : is_cstring S) : cstr S = S :=
  cstr_of_ne_zero S (fun c hc => (hS c hc).1)

theorem url_escape_eq (S : List Nat) (hS : is_cstring S) :
    url_escape (some S) = S.flatMap percent_encode_byte := by
  simp only [url_escape, cstr_of_is_cstring S hS]
  rw [url_escape_foldl_ns S (fun b hb => (hS b hb).2)]
  simp [url_escape_init]

/-- C2. For every C string `S`, `url_escape(S)` is the concatenation, byte by
byte in order, of the byte itself when it is an ASCII letter, a digit or one
of `_ ~ . -`, and otherwise of `%` followed by the byte's value as two
uppercase hexadecimal digits; in particular `url_escape(S) = S` when every
byte of `S` is a letter, a digit or one of `_ ~ . -`. -/
theorem url_escape_spec (S : List Nat) (hS : is_cstring S) :
    url_escape (some S) = S.flatMap percent_encode_byte ∧
      (∀ b, 128 ≤ b → percent_encode_byte b = [37, upper_hex (b / 16), upper_hex (b % 16)]) ∧
      ((∀ b ∈ S, is_unreserved b = true) → url_escape (some S) = S) := by
  refine ⟨url_escape_eq S hS, fun b hb => ?_, fun hsafe => ?_⟩
  · have hu : is_unreserved b = false := by
      simp only [is_unreserved, decide_eq_false_iff_not]
      omega
    simp [percent_encode_byte, hu]
  rw [url_escape_eq S hS]
  clear hS
  induction S with
  | nil => rfl
  | cons b S ih =>
    have hb := hsafe b (List.mem_cons_self _ _)
    rw [List.flatMap_cons, ih (fun c hc => hsafe c (List.mem_cons_of_mem _ hc))]
    simp [percent_encode_byte, hb]

/-- C2 witness: the bytes of `a b~/` followed by the byte 0xE9. -/
theorem url_escape_spec_witness :
    is_cstring [97, 32, 98, 126, 47, 233] ∧
      url_escape (some [97, 32, 98, 126, 47, 233]) = lit "a%20b~%2F%E9" ∧
      url_escape (some [97, 32, 98, 126, 47, 233])
        = [97, 32, 98, 126, 47, 233].flatMap percent_encode_byte :=
  ⟨by decide, by decide, (url_escape_spec [97, 32, 98, 126, 47, 233] (by decide)).1⟩

theorem percent_decode_cons (b : Nat) (t : List Nat) (hb : b ≠ 37) :
    percent_decode (b :: t) = b :: percent_decode t := by
  match t with
  | [] => rfl
  | [d] => simp [percent_decode]
  | d :: e :: r => simp [percent_decode, hb]

theorem percent_decode_escape (h l x y : Nat) (t : List Nat) (hx : hex_value h = some x)
    (hy : hex_value l = some y) :
    percent_decode (37 :: h :: l :: t) = (16 * x + y) :: percent_decode t := by
  simp [percent_decode, hx, hy]

theorem percent_decode_encode (S : List Nat) (hS : is_cstring S) :
    percent_decode (S.flatMap percent_encode_byte) = S := by
  induction S with
  | nil => rfl
  | cons b S ih =>
    have hb := (hS b (List.mem_cons_self _ _)).2
    have ih := ih (fun c hc => hS c (List.mem_cons_of_mem _ hc))
    rw [List.flatMap_cons]
    by_cases hu : is_unreserved b = true
    · have hpe : percent_encode_byte b = [b] := by simp [percent_encode_byte, hu]
      rw [hpe, List.singleton_append, percent_decode_cons _ _ (is_unreserved_ne b hb hu).1, ih]
    · have hpe : percent_encode_byte b = [37, upper_hex (b / 16), upper_hex (b % 16)] := by
        simp [percent_encode_byte, hu]
      rw [hpe, List.cons_append, List.cons_append, List.cons_append, List.nil_append,
        percent_decode_escape _ _ _ _ _ (hex_value_upper_hex _ (by omega))
          (hex_value_upper_hex _ (by omega)), ih]
      congr 1
      omega

/-- C3. Percent-encode reversibility: for every C string `S`, the standard
percent-decoder applied to `url_escape(S)` yields `S`; consequently two C
strings with the same escaped form are equal (`url_escape` is injective). -/
theorem url_escape_reversible (S T : List Nat) (hS : is_cstring S) (hT : is_cstring T) :
    percent_decode (url_escape (some S)) = S ∧
      (url_escape (some S) = url_escape (some T) → S = T) := by
  have dS : percent_decode (url_escape (some S)) = S := by
    rw [url_escape_eq S hS]; exact percent_decode_encode S hS
  have dT : percent_decode (url_escape (some T)) = T := by
    rw [url_escape_eq T hT]; exact percent_decode_encode T hT
  refine ⟨dS, fun h => ?_⟩
  rw [← dS, h, dT]

/-- C3 witness: the strings `a%b&=` and `a%25b`. -/
theorem url_escape_reversible_witness :
    is_cstring (lit "a%b&=") ∧ is_cstring (lit "a%25b") ∧
      percent_decode (url_escape (some (lit "a%b&="))) = lit "a%b&=" ∧
      (url_escape (some (lit "a%b&=")) = url_escape (some (lit "a%25b")) →
        lit "a%b&=" = lit "a%25b") :=
  ⟨by decide, by decide, url_escape_reversible (lit "a%b&=") (lit "a%25b") (by decide) (by decide)⟩

/-! ## `catenc` -/

theorem catenc_loop_succ (i : Nat) (args : List (Option (List Nat))) (rv : List Nat) :
    catenc_loop (i + 1) args rv = rv ++ (args.map (fun a => 38 :: url_escape a)).flatten := by
  induction args generalizing i rv with
  | nil => simp [catenc_loop]
  | cons a args ih =>
    rw [catenc_loop, ih]
    simp

theorem intercalate_cons (sep x : List Nat) (xs : List (List Nat)) :
    List.intercalate sep (x :: xs) = x ++ (xs.map (fun a => sep ++ a)).flatten := by
  induction xs generalizing x with
  | nil => simp [List.intercalate]
  | cons y ys ih =>
    have := ih y
    simp only [List.intercalate, List.intersperse_cons_cons, List.flatten_cons, List.map_cons]
      at this ⊢
    rw [this]
    simp

/-- C10. For every sequence of (possibly NULL) strings, `catenc` returns the
`url_escape` of each part, joined with `&` placed only between parts; a NULL
part contributes the empty string and no part at all gives the empty string. -/
theorem catenc_spec (args : List (Option (List Nat))) :
    catenc args = List.intercalate [38] (args.map url_escape) ∧
      url_escape none = [] ∧ catenc [] = [] := by
  refine ⟨?_, rfl, rfl⟩
  cases args with
  | nil => rfl
  | cons a args =>
    rw [List.map_cons, intercalate_cons, catenc, catenc_loop]
    simp only [gt_iff_lt, Nat.lt_irrefl, if_false, List.nil_append, Nat.zero_add]
    rw [catenc_loop_succ]
    simp [List.map_map, Function.comp_def]

/-! ## The sort step -/

theorem strcmp_le_iff (a : List Nat) :
    ∀ b : List Nat, (∀ x ∈ a, x ≠ 0) → (∀ x ∈ b, x ≠ 0) →
      (strcmp a b ≤ 0 ↔ a = b ∨ List.Lex (· < ·) a b) := by
  induction a with
  | nil =>
    intro b _ _
    cases b with
    | nil => simp [strcmp]
    | cons y ys => simp [strcmp, List.Lex.nil]
  | cons x xs ih =>
    intro b ha hb
    have hx : x ≠ 0 := ha x (List.mem_cons_self _ _)
    cases b with
    | nil =>
      simp only [strcmp, reduceCtorEq, false_or]
      constructor
      · intro h; omega
      · intro h; cases h
    | cons y ys =>
      have ih := ih ys (fun c hc => ha c (List.mem_cons_of_mem _ hc))
        (fun c hc => hb c (List.mem_cons_of_mem _ hc))
      by_cases hxy : x = y
      · subst hxy
        simp only [strcmp, ne_eq, not_true_eq_false, if_false, hx, List.cons.injEq, true_and]
        rw [ih, List.Lex.cons_iff]
      · simp only [strcmp, ne_eq, hxy, not_false_eq_true, if_true, List.cons.injEq, false_and,
          false_or]
        constructor
        · intro h
          exact List.Lex.rel (by omega)
        · intro h
          cases h with
          | cons h => exact absurd rfl hxy
          | rel h => omega

theorem le_iff_eq_or_lex (a b : List Nat) : a ≤ b ↔ a = b ∨ List.Lex (· < ·) a b := by
  rw [le_iff_eq_or_lt]
  rfl

theorem qsort_insert_eq (x : List Nat) (hx : ∀ c ∈ x, c ≠ 0) (ys : List (List Nat))
    (hys : ∀ y ∈ ys, ∀ c ∈ y, c ≠ 0) :
    qsort_insert cmpstringp x ys = List.orderedInsert (· ≤ ·) x ys := by
  induction ys with
  | nil => rfl
  | cons y ys ih =>
    have hy := hys y (List.mem_cons_self _ _)
    have hle : cmpstringp x y ≤ 0 ↔ x ≤ y := by
      rw [le_iff_eq_or_lex]; exact strcmp_le_iff x y hx hy
    simp only [qsort_insert, List.orderedInsert, hle]
    rw [ih (fun z hz => hys z (List.mem_cons_of_mem _ hz))]

theorem qsort_eq (l : List (List Nat)) (hl : ∀ y ∈ l, ∀ c ∈ y, c ≠ 0) :
    qsort cmpstringp l = List.insertionSort (· ≤ ·) l := by
  induction l with
  | nil => rfl
  | cons x xs ih =>
    have hxs : ∀ y ∈ xs, ∀ c ∈ y, c ≠ 0 := fun y hy => hl y (List.mem_cons_of_mem _ hy)
    rw [qsort, List.insertionSort, ih hxs]
    apply qsort_insert_eq x (hl x (List.mem_cons_self _ _))
    intro y hy
    exact hxs y ((List.perm_insertionSort _ xs).mem_iff.mp hy)

theorem qsort_perm_eq (l₁ l₂ : List (List Nat)) (h₁ : ∀ y ∈ l₁, ∀ c ∈ y, c ≠ 0)
    (hp : l₁.Perm l₂) : qsort cmpstringp l₁ = qsort cmpstringp l₂ := by
  have h₂ : ∀ y ∈ l₂, ∀ c ∈ y, c ≠ 0 := fun y hy => h₁ y (hp.mem_iff.mpr hy)
  rw [qsort_eq l₁ h₁, qsort_eq l₂ h₂]
  apply @List.eq_of_perm_of_sorted _ (· ≤ ·) ⟨fun _ _ => le_antisymm⟩
  · exact ((List.perm_insertionSort _ l₁).trans hp).trans (List.perm_insertionSort _ l₂).symm
  · exact List.sorted_insertionSort _ l₁
  · exact List.sorted_insertionSort _ l₂

/-- C7. The sort step of `oauth_sign_url` leaves element 0 unchanged and makes
the elements from index 1 on a permutation of their previous contents that is
in non-decreasing byte-wise lexicographic order of the raw token text. -/
theorem sort_parameters_spec (argv : List (List Nat)) (hC : ∀ a ∈ argv, is_cstring a) :
    (sort_parameters argv).head? = argv.head? ∧
      (sort_parameters argv).length = argv.length ∧
      (sort_parameters argv).tail.Perm argv.tail ∧
      (sort_parameters argv).tail.Pairwise (fun a b => a = b ∨ List.Lex (· < ·) a b) := by
  cases argv with
  | nil => simp [sort_parameters]
  | cons base rest =>
    have hrest : ∀ y ∈ rest, ∀ c ∈ y, c ≠ 0 :=
      fun y hy c hc => (hC y (List.mem_cons_of_mem _ hy) c hc).1
    simp only [sort_parameters, List.head?_cons, List.tail_cons, List.length_cons, true_and]
    rw [qsort_eq rest hrest]
    refine ⟨by rw [List.length_insertionSort], List.perm_insertionSort _ rest, ?_⟩
    have hs := List.sorted_insertionSort (· ≤ ·) rest
    exact List.Pairwise.imp (fun {a b} h => (le_iff_eq_or_lex a b).mp h) hs

/-- C7 witness: a base URL followed by four tokens. -/
theorem sort_parameters_spec_witness :
    (∀ a ∈ [lit "http://h/p", lit "b=1", lit "a=2", lit "a1=2", lit "a"], is_cstring a) ∧
      sort_parameters [lit "http://h/p", lit "b=1", lit "a=2", lit "a1=2", lit "a"]
        = [lit "http://h/p", lit "a", lit "a1=2", lit "a=2", lit "b=1"] ∧
      (sort_parameters [lit "http://h/p", lit "b=1", lit "a=2", lit "a1=2", lit "a"]).tail.Perm
        [lit "http://h/p", lit "b=1", lit "a=2", lit "a1=2", lit "a"].tail :=
  ⟨by decide, by decide,
    (sort_parameters_spec [lit "http://h/p", lit "b=1", lit "a=2", lit "a1=2", lit "a"]
      (by decide)).2.2.1⟩

/-! ## `serialize_url_parameters` -/

theorem serialize_loop_succ (i : Nat) (l : List (List Nat)) (q : List Nat) :
    serialize_loop (i + 2) l q = q ++ (l.map (fun a => [38] ++ serialize_param a)).flatten := by
  induction l generalizing i q with
  | nil => simp [serialize_loop]
  | cons a l ih =>
    rw [serialize_loop, ih]
    simp

theorem serialize_eq (argv : List (List Nat)) :
    serialize_url_parameters argv
      = List.intercalate [38] ((argv.drop 1).map serialize_param) := by
  unfold serialize_url_parameters
  cases argv.drop 1 with
  | nil => rfl
  | cons a l =>
    rw [List.map_cons, intercalate_cons, serialize_loop, serialize_loop_succ]
    simp [List.map_map, Function.comp_def]

theorem serialize_param_eq (a : List Nat) (ha : is_cstring a) :
    serialize_param a =
      if 61 ∈ a then url_escape (some (param_name a)) ++ [61] ++ url_escape (some (param_value a))
      else a := by
  simp only [serialize_param, cstr_of_is_cstring a ha, param_name, param_value]

theorem percent_encode_byte_no_eq (b : Nat) (hb : b < 256) : 61 ∉ percent_encode_byte b := by
  unfold percent_encode_byte
  split_ifs with hu
  · have := (is_unreserved_ne b hb hu).2.1
    simp; omega
  · have h1 := (upper_hex_ne (b / 16) (by omega)).2
    have h2 := (upper_hex_ne (b % 16) (by omega)).2
    simp only [List.mem_cons, List.not_mem_nil, or_false, not_or]
    exact ⟨by decide, fun h => h1 h.symm, fun h => h2 h.symm⟩

theorem url_escape_no_eq (s : List Nat) (hs : is_cstring s) : 61 ∉ url_escape (some s) := by
  rw [url_escape_eq s hs, List.mem_flatMap]
  rintro ⟨b, hb, h⟩
  exact percent_encode_byte_no_eq b (hs b hb).2 h

theorem is_cstring_param_name (a : List Nat) (ha : is_cstring a) : is_cstring (param_name a) :=
  fun b hb => ha b ((List.takeWhile_sublist _).subset hb)

theorem is_cstring_param_value (a : List Nat) (ha : is_cstring a) :
    is_cstring (param_value a) :=
  fun b hb => ha b ((List.dropWhile_sublist _).subset (List.mem_of_mem_drop hb))

/-- C8. For every parameter list whose elements from index 1 on each contain
a `=`, `serialize_url_parameters` returns those elements joined with `&`
(element 0 omitted, no separator at either end), each rendered as the
`url_escape` of the text before its first `=`, a `=`, and the `url_escape` of
the text after it; neither escaped part contains a `=`, a `=` inside the value
being rendered `%3D`. -/
theorem serialize_with_eq (argv : List (List Nat)) (hC : ∀ a ∈ argv, is_cstring a)
    (heq : ∀ a ∈ argv.drop 1, 61 ∈ a) :
    serialize_url_parameters argv
        = List.intercalate [38] ((argv.drop 1).map (fun a =>
            url_escape (some (param_name a)) ++ [61] ++ url_escape (some (param_value a)))) ∧
      (∀ a ∈ argv.drop 1, 61 ∉ url_escape (some (param_name a)) ∧
        61 ∉ url_escape (some (param_value a)) ∧
        url_escape (some (param_value a)) = (param_value a).flatMap percent_encode_byte) ∧
      percent_encode_byte 61 = lit "%3D" := by
  refine ⟨?_, ?_, by decide⟩
  · rw [serialize_eq]
    congr 1
    apply List.map_congr_left
    intro a ha
    rw [serialize_param_eq a (hC a (List.mem_of_mem_drop ha)), if_pos (heq a ha)]
  · intro a ha
    have hc := hC a (List.mem_of_mem_drop ha)
    exact ⟨url_escape_no_eq _ (is_cstring_param_name a hc),
      url_escape_no_eq _ (is_cstring_param_value a hc),
      url_escape_eq _ (is_cstring_param_value a hc)⟩

/-- C8 witness: a base URL followed by `c d=e=f g` and `x=`. -/
theorem serialize_with_eq_witness :
    (∀ a ∈ [lit "http://h/p", lit "c d=e=f g", lit "x="], is_cstring a) ∧
      (∀ a ∈ [lit "http://h/p", lit "c d=e=f g", lit "x="].drop 1, 61 ∈ a) ∧
      serialize_url_parameters [lit "http://h/p", lit "c d=e=f g", lit "x="]
        = lit "c%20d=e%3Df%20g&x=" ∧
      serialize_url_parameters [lit "http://h/p", lit "c d=e=f g", lit "x="]
        = List.intercalate [38] (([lit "http://h/p", lit "c d=e=f g", lit "x="].drop 1).map
            (fun a => url_escape (some (param_name a)) ++ [61]
              ++ url_escape (some (param_value a)))) :=
  ⟨by decide, by decide, by decide,
    (serialize_with_eq [lit "http://h/p", lit "c d=e=f g", lit "x="] (by decide) (by decide)).1⟩

/-- C9 (amended). For every parameter list, `serialize_url_parameters` emits
an element at index >= 1 that contains no `=` as the token itself, copied
without escaping (the bare token `a b` is emitted as `a b`); elements with a
`=` are rendered as escaped name, `=`, escaped value, and the elements are
joined with `&`. -/
theorem serialize_bare_token (argv : List (List Nat)) (hC : ∀ a ∈ argv, is_cstring a) :
    serialize_url_parameters argv
      = List.intercalate [38] ((argv.drop 1).map (fun a =>
          if 61 ∈ a then
            url_escape (some (param_name a)) ++ [61] ++ url_escape (some (param_value a))
          else a)) := by
  rw [serialize_eq]
  congr 1
  apply List.map_congr_left
  intro a ha
  exact serialize_param_eq a (hC a (List.mem_of_mem_drop ha))

/-- C9 witness: a base URL followed by the bare token `a b` and `c=d`. -/
theorem serialize_bare_token_witness :
    (∀ a ∈ [lit "http://h/p", lit "a b", lit "c=d"], is_cstring a) ∧
      serialize_url_parameters [lit "http://h/p", lit "a b", lit "c=d"] = lit "a b&c=d" ∧
      serialize_url_parameters [lit "http://h/p", lit "a b", lit "c=d"]
        = List.intercalate [38] (([lit "http://h/p", lit "a b", lit "c=d"].drop 1).map (fun a =>
            if 61 ∈ a then
              url_escape (some (param_name a)) ++ [61] ++ url_escape (some (param_value a))
            else a)) :=
  ⟨by decide, by decide,
    serialize_bare_token [lit "http://h/p", lit "a b", lit "c=d"] (by decide)⟩

/-- C9 counterexample: the bare token `a b` at index 1 is emitted as `a b`,
which is not its `url_escape`, `a%20b`. -/
theorem serialize_bare_token_counterexample :
    serialize_url_parameters [lit "http://h/p", lit "a b"] = lit "a b" ∧
      url_escape (some (lit "a b")) = lit "a%20b" ∧
      serialize_url_parameters [lit "http://h/p", lit "a b"] ≠ url_escape (some (lit "a b")) := by
  decide

/-! ## `split_url_parameters` -/

theorem url_tokens_aux_run (s : List Nat) :
    ∀ cur : List Nat, url_tokens_aux cur s =
      (if cur ++ s.takeWhile (fun c => !isDelim c) = [] then []
        else [cur ++ s.takeWhile (fun c => !isDelim c)])
      ++ url_tokens_aux [] ((s.dropWhile (fun c => !isDelim c)).drop 1) := by
  induction s with
  | nil => intro cur; simp [url_tokens_aux]
  | cons c s ih =>
    intro cur
    by_cases hc : isDelim c = true
    · simp [url_tokens_aux, List.takeWhile_cons, List.dropWhile_cons, hc]
    · simp only [url_tokens_aux, hc, if_false, List.takeWhile_cons, List.dropWhile_cons,
        Bool.not_eq_true, Bool.not_eq_true', Bool.false_eq_true]
      rw [ih (cur ++ [c])]
      simp [hc]

theorem url_tokens_aux_skip (s : List Nat) :
    url_tokens_aux [] s = url_tokens_aux [] (s.dropWhile isDelim) := by
  induction s with
  | nil => rfl
  | cons c s ih =>
    by_cases hc : isDelim c = true
    · simp [url_tokens_aux, List.dropWhile_cons, hc, ih]
    · simp [List.dropWhile_cons, hc]

theorem dropWhile_head_not (p : Nat → Bool) (s : List Nat) (c : Nat) (t : List Nat)
    (h : s.dropWhile p = c :: t) : p c = false := by
  induction s with
  | nil => simp at h
  | cons d s ih =>
    rw [List.dropWhile_cons] at h
    split_ifs at h with hd
    · exact ih h
    · simp only [List.cons.injEq] at h
      rw [← h.1]
      simpa using hd

theorem strtok_none (s : List Nat) (h : strtok s = none) : url_tokens_aux [] s = [] := by
  unfold strtok at h
  simp only [ite_eq_left_iff, reduceCtorEq, imp_false, not_not] at h
  rw [url_tokens_aux_skip, h]
  rfl

theorem strtok_some (s tok rest : List Nat) (h : strtok s = some (tok, rest)) :
    url_tokens_aux [] s = tok :: url_tokens_aux [] rest ∧ tok ≠ [] ∧
      rest.length < s.length ∧
      strtok (s.takeWhile isDelim ++ tok) = some (tok, []) := by
  unfold strtok at h
  simp only at h
  split_ifs at h with hnil
  simp only [Option.some.injEq, Prod.mk.injEq] at h
  obtain ⟨htok, hrest⟩ := h
  obtain ⟨c, t, hct⟩ : ∃ c t, s.dropWhile isDelim = c :: t := by
    cases hd : s.dropWhile isDelim with
    | nil => exact absurd hd hnil
    | cons c t => exact ⟨c, t, rfl⟩
  have hc : isDelim c = false := dropWhile_head_not isDelim s c t hct
  have htokne : tok ≠ [] := by
    rw [← htok, hct, List.takeWhile_cons]
    simp [hc]
  refine ⟨?_, htokne, ?_, ?_⟩
  · rw [url_tokens_aux_skip, url_tokens_aux_run, htok, hrest]
    simp [htokne]
  · rw [← hrest, List.length_drop]
    have h1 := (List.dropWhile_sublist (fun c => !isDelim c)
      (l := s.dropWhile isDelim)).length_le
    have h2 := (List.dropWhile_sublist isDelim (l := s)).length_le
    have h3 : (List.dropWhile isDelim s).length ≠ 0 := by rw [hct]; simp
    have h4 : (List.dropWhile (fun c => !isDelim c) (List.dropWhile isDelim s)).length
        < (List.dropWhile isDelim s).length ∨
        (List.dropWhile (fun c => !isDelim c) (List.dropWhile isDelim s)).length ≥ 1 := by
      rw [hct, List.dropWhile_cons]
      simp [hc]
      have := (List.dropWhile_sublist (fun c => !isDelim c) (l := t)).length_le
      omega
    omega
  · have hall : ∀ x ∈ tok, (fun c => !isDelim c) x = true := by
      intro x hx
      rw [← htok] at hx
      exact @List.mem_takeWhile_imp _ (fun c => !isDelim c) _ _ hx
    have hd : (s.takeWhile isDelim ++ tok).dropWhile isDelim = tok := by
      rw [List.dropWhile_append]
      have : List.dropWhile isDelim (List.takeWhile isDelim s) = [] := by
        rw [List.dropWhile_eq_nil_iff]
        intro x hx
        exact @List.mem_takeWhile_imp _ isDelim _ _ hx
      simp only [this, List.isEmpty_nil, if_true]
      cases htk : tok with
      | nil => exact absurd htk htokne
      | cons d r =>
        have hdr : isDelim d = false := by
          have := hall d (by rw [htk]; exact List.mem_cons_self _ _)
          simpa using this
        simp [List.dropWhile_cons, hdr]
    unfold strtok
    simp only [hd, if_neg htokne]
    have ht : tok.takeWhile (fun c => !isDelim c) = tok := List.takeWhile_eq_self_iff.mpr hall
    have hdd : tok.dropWhile (fun c => !isDelim c) = [] := List.dropWhile_eq_nil_iff.mpr hall
    rw [ht, hdd]
    rfl

theorem strncasecmp_eq_zero_iff (n : Nat) :
    ∀ p t : List Nat, n ≤ p.length → (∀ c ∈ p, tolower c ≠ 0) →
      (strncasecmp p t n = 0 ↔ (t.take n).map tolower = (p.take n).map tolower) := by
  induction n with
  | zero => intro p t _ _; simp [strncasecmp]
  | succ n ih =>
    intro p t hlen hp
    cases p with
    | nil => simp at hlen
    | cons c p =>
      have hc : tolower c ≠ 0 := hp c (List.mem_cons_self _ _)
      have ih := fun t => ih p t (by simpa using hlen)
        (fun d hd => hp d (List.mem_cons_of_mem _ hd))
      cases t with
      | nil =>
        have h0 : tolower 0 = 0 := by decide
        simp only [strncasecmp, List.headD_cons, List.headD_nil, h0, ne_eq, hc,
          not_false_eq_true, if_true, List.take_nil, List.map_nil, List.take_succ_cons,
          List.map_cons, reduceCtorEq, iff_false]
        omega
      | cons d t =>
        by_cases hcd : tolower c = tolower d
        · simp only [strncasecmp, List.headD_cons, hcd, ne_eq, not_true_eq_false, if_false,
            List.tail_cons, List.take_succ_cons, List.map_cons, List.cons.injEq, true_and]
          rw [← hcd, if_neg hc]
          exact ih t
        · simp only [strncasecmp, List.headD_cons, ne_eq, hcd, not_false_eq_true, if_true,
            List.take_succ_cons, List.map_cons, List.cons.injEq]
          constructor
          · intro h; omega
          · intro h; exact absurd h.1.symm hcd

theorem is_signature_token_iff (t : List Nat) :
    strncasecmp (lit "oauth_signature") t 15 = 0 ↔ is_signature_token t = true := by
  rw [strncasecmp_eq_zero_iff 15 _ t (by decide) (by decide)]
  simp only [is_signature_token, decide_eq_true_eq]
  have : ((lit "oauth_signature").take 15).map tolower = lit "oauth_signature" := by decide
  rw [this]

theorem split_loop_stuck (tok : List Nat) (hdrop : is_signature_token tok = true) :
    ∀ fuel t saved argv rest, strtok t = some (tok, rest) →
      split_loop fuel { tmp := some t, saved := saved, argv := argv } = none := by
  intro fuel
  induction fuel with
  | zero => intro t saved argv rest _; rfl
  | succ fuel ih =>
    intro t saved argv rest h
    have h' := (strtok_some t tok rest h).2.2.2
    simp only [split_loop, h, if_pos ((is_signature_token_iff tok).mpr hdrop), Option.map_some']
    exact ih _ _ _ [] h'

theorem split_loop_rest :
    ∀ fuel s argv, s.length < fuel →
      split_loop fuel { tmp := none, saved := s, argv := argv }
        = some (argv ++ (url_tokens_aux [] s).filter (fun t => !is_signature_token t)) := by
  intro fuel
  induction fuel with
  | zero => intro s argv h; omega
  | succ fuel ih =>
    intro s argv hlen
    cases hs : strtok s with
    | none => simp [split_loop, hs, strtok_none s hs]
    | some p =>
      obtain ⟨tok, rest⟩ := p
      obtain ⟨htoks, _, hlt, _⟩ := strtok_some s tok rest hs
      simp only [split_loop, hs, Option.map_none']
      rw [htoks, List.filter_cons]
      by_cases hd : is_signature_token tok = true
      · rw [if_pos ((is_signature_token_iff tok).mpr hd), ih rest argv (by omega)]
        simp [hd]
      · rw [if_neg (fun h => hd ((is_signature_token_iff tok).mp h)),
          ih rest (argv ++ [tok]) (by omega)]
        simp [hd]

/-- What `split_url_parameters` computes, for any number of passes allowed from
`strlen(url) + 1` on: with no token an empty array; with a first token that
begins with `oauth_signature` the loop never ends; otherwise the tokens
without those beginning with `oauth_signature`. -/
theorem split_loop_eq (url : List Nat) (fuel : Nat) (hfuel : strlen url + 1 ≤ fuel) :
    split_loop fuel (split_init url) =
      match url_tokens url with
      | [] => some []
      | t :: ts =>
        if is_signature_token t then none
        else some (t :: ts.filter (fun t => !is_signature_token t)) := by
  obtain ⟨fuel, rfl⟩ : ∃ f, fuel = f + 1 := ⟨fuel - 1, by omega⟩
  unfold strlen at hfuel
  unfold url_tokens
  cases hs : strtok (cstr url) with
  | none =>
    rw [strtok_none _ hs]
    simp [split_loop, split_init, hs]
  | some p =>
    obtain ⟨tok, rest⟩ := p
    obtain ⟨htoks, _, hlt, _⟩ := strtok_some _ tok rest hs
    rw [htoks]
    by_cases hd : is_signature_token tok = true
    · simp only [hd, if_true]
      exact split_loop_stuck tok hd _ _ _ _ _ hs
    · simp only [hd, if_false, Bool.false_eq_true]
      simp only [split_loop, split_init, hs,
        if_neg (fun h => hd ((is_signature_token_iff tok).mp h))]
      rw [split_loop_rest fuel rest _ (by omega)]
      simp

/-- The bound `strlen(url) + 1` on the passes of the loop of
`split_url_parameters` loses nothing: any larger bound gives the same result,
a loop still running after that many passes never ends. -/
theorem split_loop_fuel (url : List Nat) (fuel : Nat) (hfuel : strlen url + 1 ≤ fuel) :
    split_loop fuel (split_init url) = split_url_parameters url := by
  rw [split_url_parameters, split_loop_eq url fuel hfuel, split_loop_eq url _ (le_refl _)]

theorem split_url_parameters_eq (url : List Nat) :
    split_url_parameters url =
      match url_tokens url with
      | [] => some []
      | t :: ts =>
        if is_signature_token t then none
        else some (t :: ts.filter (fun t => !is_signature_token t)) :=
  split_loop_eq url _ (le_refl _)

/-- C6 (the code at the failing input). On the URL `oauth_signature=x&a=1`
the loop of `split_url_parameters` does not end, whatever number of passes is
allowed: the dropped first token is returned by `strtok` again on every pass,
while the tokens of that URL not beginning with `oauth_signature` are the
one-element list `a=1`. -/
theorem split_first_token_dropped :
    (∀ fuel, split_loop fuel (split_init (lit "oauth_signature=x&a=1")) = none) ∧
      split_url_parameters (lit "oauth_signature=x&a=1") = none ∧
      (url_tokens (lit "oauth_signature=x&a=1")).filter (fun t => !is_signature_token t)
        = [lit "a=1"] := by
  refine ⟨fun fuel => ?_, by decide, by decide⟩
  exact split_loop_stuck (lit "oauth_signature=x") (by decide) fuel _ _ _ (lit "a=1") (by decide)

/-! ## `oauth_sign_url` -/

theorem cstr_ne_zero (l : List Nat) : ∀ c ∈ cstr l, c ≠ 0 := by
  induction l with
  | nil => simp [cstr]
  | cons a l ih =>
    intro c hc
    rw [cstr] at hc
    split_ifs at hc with ha
    · simp at hc
    · rcases List.mem_cons.mp hc with h | h
      · rw [h]; exact ha
      · exact ih c h

theorem url_tokens_aux_ne_zero (s : List Nat) :
    ∀ cur : List Nat, (∀ c ∈ cur, c ≠ 0) → (∀ c ∈ s, c ≠ 0) →
      ∀ t ∈ url_tokens_aux cur s, ∀ c ∈ t, c ≠ 0 := by
  induction s with
  | nil =>
    intro cur hcur _ t ht
    rw [url_tokens_aux] at ht
    split_ifs at ht
    · simp at ht
    · rw [List.mem_singleton.mp ht]; exact hcur
  | cons d s ih =>
    intro cur hcur hs t ht
    have hs' : ∀ c ∈ s, c ≠ 0 := fun c hc => hs c (List.mem_cons_of_mem _ hc)
    rw [url_tokens_aux] at ht
    split_ifs at ht with h1 h2
    · exact ih [] (by simp) hs' t (by simpa using ht)
    · rcases List.mem_append.mp ht with h | h
      · rw [List.mem_singleton.mp h]; exact hcur
      · exact ih [] (by simp) hs' t h
    · refine ih (cur ++ [d]) ?_ hs' t ht
      intro c hc
      rcases List.mem_append.mp hc with h | h
      · exact hcur c h
      · rw [List.mem_singleton.mp h]; exact hs d (List.mem_cons_self _ _)

theorem url_tokens_ne_zero (url : List Nat) : ∀ t ∈ url_tokens url, ∀ c ∈ t, c ≠ 0 :=
  url_tokens_aux_ne_zero _ [] (by simp) (cstr_ne_zero url)

theorem url_escape_case_ne_zero : ∀ b < 256, url_escape_case b = true → b ≠ 0 := by decide!

theorem hexdigit_ne_zero (d : Nat) : hexdigit d ≠ 0 := by
  unfold hexdigit; split_ifs <;> omega

theorem url_escape_step_ne_zero (st : EscState) (b : Nat) (h : ∀ c ∈ st.ns, c ≠ 0) :
    ∀ c ∈ (url_escape_step st b).ns, c ≠ 0 := by
  have hb : b % 256 < 256 := Nat.mod_lt _ (by norm_num)
  intro c hc
  unfold url_escape_step at hc
  simp only at hc
  split_ifs at hc with hcase
  · rcases List.mem_append.mp hc with h1 | h1
    · exact h c h1
    · rw [List.mem_singleton.mp h1]; exact url_escape_case_ne_zero _ hb hcase
  all_goals
    rcases List.mem_append.mp hc with h1 | h1
    · exact h c h1
    · simp only [List.mem_cons, List.not_mem_nil, or_false] at h1
      rcases h1 with h1 | h1 | h1
      · omega
      · rw [h1]; exact hexdigit_ne_zero _
      · rw [h1]; exact hexdigit_ne_zero _

theorem url_escape_foldl_ne_zero (l : List Nat) :
    ∀ st : EscState, (∀ c ∈ st.ns, c ≠ 0) → ∀ c ∈ (l.foldl url_escape_step st).ns, c ≠ 0 := by
  induction l with
  | nil => intro st h; simpa using h
  | cons b l ih =>
    intro st h
    rw [List.foldl_cons]
    exact ih _ (url_escape_step_ne_zero st b h)

theorem url_escape_ne_zero (s : Option (List Nat)) : ∀ c ∈ url_escape s, c ≠ 0 := by
  cases s with
  | none => simp [url_escape]
  | some mem => exact url_escape_foldl_ne_zero _ _ (by simp [url_escape_init])

theorem digitChar_ne_zero : ∀ d < 10, (Nat.digitChar d).toNat ≠ 0 := by decide

theorem toDigitsCore_ne_zero :
    ∀ fuel n ds, (∀ c ∈ ds, Char.toNat c ≠ 0) →
      ∀ c ∈ Nat.toDigitsCore 10 fuel n ds, Char.toNat c ≠ 0 := by
  intro fuel
  induction fuel with
  | zero => intro n ds h; simpa [Nat.toDigitsCore] using h
  | succ fuel ih =>
    intro n ds h
    have hd : ∀ c ∈ Nat.digitChar (n % 10) :: ds, Char.toNat c ≠ 0 := by
      intro c hc
      rcases List.mem_cons.mp hc with h1 | h1
      · rw [h1]; exact digitChar_ne_zero _ (Nat.mod_lt _ (by norm_num))
      · exact h c h1
    rw [Nat.toDigitsCore]
    split_ifs
    · exact hd
    · exact ih _ _ hd

theorem fmt_li_ne_zero (n : Int) : ∀ c ∈ fmt_li n, c ≠ 0 := by
  have hd : ∀ m : Nat, ∀ c ∈ (Nat.toDigits 10 m).map Char.toNat, c ≠ 0 := by
    intro m c hc
    obtain ⟨d, hd, rfl⟩ := List.mem_map.mp hc
    exact toDigitsCore_ne_zero _ _ [] (by simp) d hd
  intro c hc
  unfold fmt_li at hc
  split_ifs at hc
  · rcases List.mem_cons.mp hc with h | h
    · omega
    · exact hd _ c h
  · exact hd _ c hc

theorem snprintf_oarg_ne_zero (p x : List Nat) (hp : ∀ c ∈ p, c ≠ 0) (hx : ∀ c ∈ x, c ≠ 0) :
    ∀ c ∈ snprintf_oarg (p ++ x), c ≠ 0 := by
  intro c hc
  rcases List.mem_append.mp (List.mem_of_mem_take hc) with h | h
  · exact hp c h
  · exact hx c h

theorem oauth_args_ne_zero (nonce : List Nat) (now : Int) (method : OAuthMethod)
    (c_key t_key : Option (List Nat)) :
    ∀ a ∈ oauth_args nonce now method c_key t_key, ∀ c ∈ a, c ≠ 0 := by
  intro a ha
  unfold oauth_args at ha
  simp only [List.mem_append, List.mem_cons, List.not_mem_nil, or_false] at ha
  rcases ha with (h | h) | h
  · rcases h with h | h
    · rw [h]; exact snprintf_oarg_ne_zero _ _ (by decide) (cstr_ne_zero _)
    · rw [h]; exact snprintf_oarg_ne_zero _ _ (by decide) (fmt_li_ne_zero _)
  · cases t_key with
    | none => simp at h
    | some t =>
      simp only at h
      split_ifs at h
      · rw [List.mem_singleton.mp h]
        exact snprintf_oarg_ne_zero _ _ (by decide) (url_escape_ne_zero _)
      · simp at h
  · rcases h with h | h | h
    · rw [h]; exact snprintf_oarg_ne_zero _ _ (by decide) (url_escape_ne_zero _)
    · rw [h]
      apply snprintf_oarg_ne_zero _ _ (by decide)
      cases method <;> decide
    · rw [h]; decide

theorem sign_argv_perm (nonce : List Nat) (now : Int) (u1 u2 : List Nat) (method : OAuthMethod)
    (c_key t_key : Option (List Nat))
    (hfirst : (url_tokens u1).head? = (url_tokens u2).head?)
    (hperm : (url_tokens u1).tail.Perm (url_tokens u2).tail) :
    sign_argv nonce now u1 method c_key t_key = sign_argv nonce now u2 method c_key t_key := by
  unfold sign_argv
  rw [split_url_parameters_eq u1, split_url_parameters_eq u2]
  have hz1 := url_tokens_ne_zero u1
  have hz2 := url_tokens_ne_zero u2
  cases h1 : url_tokens u1 with
  | nil =>
    cases h2 : url_tokens u2 with
    | nil => rfl
    | cons t2 ts2 => rw [h1, h2] at hfirst; simp at hfirst
  | cons t1 ts1 =>
    cases h2 : url_tokens u2 with
    | nil => rw [h1, h2] at hfirst; simp at hfirst
    | cons t2 ts2 =>
      rw [h1, h2] at hfirst hperm
      rw [h1] at hz1
      simp only [List.head?_cons, Option.some.injEq] at hfirst
      simp only [List.tail_cons] at hperm
      subst hfirst
      by_cases hd : is_signature_token t1 = true
      · simp [hd]
      · simp only [hd, if_false, Bool.false_eq_true, Option.map_some', Option.some.injEq,
          List.cons_append, sort_parameters, List.cons.injEq, true_and]
        apply qsort_perm_eq
        · intro y hy
          rcases List.mem_append.mp hy with h | h
          · exact hz1 y (List.mem_cons_of_mem _ (List.mem_of_mem_filter h))
          · exact oauth_args_ne_zero _ _ _ _ _ y h
        · exact (hperm.filter _).append_right _

theorem sign_argv_isSome (nonce : List Nat) (now : Int) (url : List Nat) (method : OAuthMethod)
    (c_key t_key : Option (List Nat))
    (h : ∀ t, (url_tokens url).head? = some t → is_signature_token t = false) :
    (sign_argv nonce now url method c_key t_key).isSome = true := by
  unfold sign_argv
  rw [split_url_parameters_eq url]
  cases h1 : url_tokens url with
  | nil => rfl
  | cons t ts =>
    have := h t (by rw [h1]; rfl)
    simp [this]

/-- C5. Canonical ordering determinism: two URLs with the same first token
whose remaining `&`/`?`-separated tokens are permutations of each other,
signed with the same credentials, method, GET/POST mode, nonce and timestamp,
give the same serialized query string, the same signing base string and the
same result of `oauth_sign_url` (hence the same signature); the call returns
whenever the first token does not begin with `oauth_signature`. -/
theorem sign_order_independent (env : Env) (u1 u2 : List Nat) (postargs : Bool)
    (method : OAuthMethod) (c_key c_secret t_key t_secret : Option (List Nat))
    (hfirst : (url_tokens u1).head? = (url_tokens u2).head?)
    (hperm : (url_tokens u1).tail.Perm (url_tokens u2).tail) :
    (sign_argv env.nonce env.now u1 method c_key t_key).map serialize_url_parameters
        = (sign_argv env.nonce env.now u2 method c_key t_key).map serialize_url_parameters ∧
      (sign_argv env.nonce env.now u1 method c_key t_key).map (sign_odat postargs)
        = (sign_argv env.nonce env.now u2 method c_key t_key).map (sign_odat postargs) ∧
      oauth_sign_url env u1 postargs method c_key c_secret t_key t_secret
        = oauth_sign_url env u2 postargs method c_key c_secret t_key t_secret ∧
      ((∀ t, (url_tokens u1).head? = some t → is_signature_token t = false) →
        (oauth_sign_url env u1 postargs method c_key c_secret t_key t_secret).isSome = true) := by
  have h := sign_argv_perm env.nonce env.now u1 u2 method c_key t_key hfirst hperm
  refine ⟨by rw [h], by rw [h], by simp only [oauth_sign_url, h], fun hs => ?_⟩
  have hsome := sign_argv_isSome env.nonce env.now u1 method c_key t_key hs
  obtain ⟨argv, hargv⟩ := Option.isSome_iff_exists.mp hsome
  simp only [oauth_sign_url, hargv]
  split_ifs <;> rfl

/-- C5 witness: `http://h/p?b=2&a=1` and `http://h/p?a=1&b=2`. -/
theorem sign_order_independent_witness :
    (url_tokens (lit "http://h/p?b=2&a=1")).head? = (url_tokens (lit "http://h/p?a=1&b=2")).head? ∧
      (url_tokens (lit "http://h/p?b=2&a=1")).tail.Perm
        (url_tokens (lit "http://h/p?a=1&b=2")).tail ∧
      oauth_sign_url ⟨lit "abc123", 1000000000, fun _ _ => ([], 0)⟩ (lit "http://h/p?b=2&a=1")
          false .OA_PLAINTEXT (some (lit "ck")) (some (lit "cs")) none none
        = oauth_sign_url ⟨lit "abc123", 1000000000, fun _ _ => ([], 0)⟩ (lit "http://h/p?a=1&b=2")
          false .OA_PLAINTEXT (some (lit "ck")) (some (lit "cs")) none none :=
  ⟨by decide, by decide,
    (sign_order_independent ⟨lit "abc123", 1000000000, fun _ _ => ([], 0)⟩
      (lit "http://h/p?b=2&a=1") (lit "http://h/p?a=1&b=2") false .OA_PLAINTEXT
      (some (lit "ck")) (some (lit "cs")) none none (by decide) (by decide)).2.2.1⟩

theorem example_argv :
    sign_argv (lit "abc123") 1000000000 (lit "http://example.com/request?a=1") .OA_HMAC
        (some (lit "ck")) none
      = some [lit "http://example.com/request", lit "a=1", lit "oauth_consumer_key=ck",
          lit "oauth_nonce=abc123", lit "oauth_signature_method=HMAC_SHA1",
          lit "oauth_timestamp=1000000000", lit "oauth_version=1.0"] := by
  decide!

theorem example_odat :
    sign_odat false [lit "http://example.com/request", lit "a=1", lit "oauth_consumer_key=ck",
        lit "oauth_nonce=abc123", lit "oauth_signature_method=HMAC_SHA1",
        lit "oauth_timestamp=1000000000", lit "oauth_version=1.0"]
      = lit "GET&http%3A%2F%2Fexample.com%2Frequest&a%3D1%26oauth_consumer_key%3Dck%26oauth_nonce%3Dabc123%26oauth_signature_method%3DHMAC_SHA1%26oauth_timestamp%3D1000000000%26oauth_version%3D1.0" := by
  decide!

theorem example_okey : sign_okey (some (lit "cs")) none = lit "cs&" := by decide

theorem result_loop_append (postargs : Bool) (l : List (List Nat)) (x : List Nat) :
    ∀ (i : Nat) (r : List Nat), result_loop postargs i (l ++ [x]) r =
      result_loop postargs i l r
        ++ (if i + l.length = 0 ∨ (postargs ∧ i + l.length = 1) then []
            else if ¬ postargs ∧ i + l.length = 1 then [63] else [38])
        ++ cstr x := by
  induction l with
  | nil => intro i r; simp [result_loop]
  | cons a l ih =>
    intro i r
    rw [List.cons_append, result_loop, ih, result_loop]
    simp only [List.length_cons]
    rw [show i + 1 + l.length = i + (l.length + 1) by omega]

theorem example_result :
    result_loop false 0 [lit "http://example.com/request", lit "a=1",
        lit "oauth_consumer_key=ck", lit "oauth_nonce=abc123",
        lit "oauth_signature_method=HMAC_SHA1", lit "oauth_timestamp=1000000000",
        lit "oauth_version=1.0"] [] ++ [38]
      = lit "http://example.com/request?a=1&oauth_consumer_key=ck&oauth_nonce=abc123&oauth_signature_method=HMAC_SHA1&oauth_timestamp=1000000000&oauth_version=1.0&" := by
  decide!

theorem example_cstr :
    cstr (lit "cs&") = lit "cs&" ∧
      cstr (lit "GET&http%3A%2F%2Fexample.com%2Frequest&a%3D1%26oauth_consumer_key%3Dck%26oauth_nonce%3Dabc123%26oauth_signature_method%3DHMAC_SHA1%26oauth_timestamp%3D1000000000%26oauth_version%3D1.0")
        = lit "GET&http%3A%2F%2Fexample.com%2Frequest&a%3D1%26oauth_consumer_key%3Dck%26oauth_nonce%3Dabc123%26oauth_signature_method%3DHMAC_SHA1%26oauth_timestamp%3D1000000000%26oauth_version%3D1.0" := by
  decide!

/-- C4. End-to-end example: for the URL `http://example.com/request?a=1` in
GET mode with method HMAC, consumer key `ck`, consumer secret `cs`, no token
key and no token secret, nonce `abc123` and timestamp 1000000000, the message
`oauth_sign_url` builds and hands to HMAC is the stated signing base string
and the key is `cs&`, whatever the HMAC function is. -/
theorem sign_url_example (H : List Nat → List Nat → List Nat × Nat) :
    (sign_argv (lit "abc123") 1000000000 (lit "http://example.com/request?a=1") .OA_HMAC
        (some (lit "ck")) none).map (sign_odat false)
      = some (lit "GET&http%3A%2F%2Fexample.com%2Frequest&a%3D1%26oauth_consumer_key%3Dck%26oauth_nonce%3Dabc123%26oauth_signature_method%3DHMAC_SHA1%26oauth_timestamp%3D1000000000%26oauth_version%3D1.0") ∧
    sign_okey (some (lit "cs")) none = lit "cs&" ∧
    oauth_sign_url ⟨lit "abc123", 1000000000, H⟩ (lit "http://example.com/request?a=1") false
        .OA_HMAC (some (lit "ck")) (some (lit "cs")) none none
      = some (lit "http://example.com/request?a=1&oauth_consumer_key=ck&oauth_nonce=abc123&oauth_signature_method=HMAC_SHA1&oauth_timestamp=1000000000&oauth_version=1.0&"
          ++ snprintf_oarg (lit "oauth_signature=" ++ url_escape (oauth_encode_base64
              (H (lit "cs&") (lit "GET&http%3A%2F%2Fexample.com%2Frequest&a%3D1%26oauth_consumer_key%3Dck%26oauth_nonce%3Dabc123%26oauth_signature_method%3DHMAC_SHA1%26oauth_timestamp%3D1000000000%26oauth_version%3D1.0")).2
              (some (H (lit "cs&") (lit "GET&http%3A%2F%2Fexample.com%2Frequest&a%3D1%26oauth_consumer_key%3Dck%26oauth_nonce%3Dabc123%26oauth_signature_method%3DHMAC_SHA1%26oauth_timestamp%3D1000000000%26oauth_version%3D1.0")).1))),
          none) := by
  refine ⟨by rw [example_argv, Option.map_some', example_odat], example_okey, ?_⟩
  simp only [oauth_sign_url, example_argv, example_okey, example_odat, sign_switch,
    oauth_sign_hmac_sha1, example_cstr.1, example_cstr.2, Bool.false_eq_true, if_false,
    List.drop_zero]
  rw [result_loop_append, ← example_result]
  rw [cstr_of_ne_zero _ (snprintf_oarg_ne_zero _ _ (by decide) (url_escape_ne_zero _))]
  simp

/-! ## The parameters added by `oauth_sign_url` -/

theorem param_name_snprintf_oarg (name value : List Nat) (hn : 61 ∉ name)
    (hlen : name.length < 1023) :
    param_name (snprintf_oarg (name ++ 61 :: value)) = name := by
  unfold param_name snprintf_oarg
  have htake : List.take 1023 (name ++ 61 :: value)
      = name ++ List.take (1023 - name.length) (61 :: value) := by
    rw [List.take_append_eq_append_take, List.take_of_length_le (by omega)]
  obtain ⟨m, hm⟩ : ∃ m, 1023 - name.length = m + 1 := ⟨1023 - name.length - 1, by omega⟩
  rw [htake, hm, List.take_succ_cons, List.takeWhile_append_of_pos]
  · simp
  · intro c hc
    have : c ≠ 61 := fun h => hn (h ▸ hc)
    simpa using this

theorem oauth_args_param_names (nonce : List Nat) (now : Int) (method : OAuthMethod)
    (c_key t_key : Option (List Nat)) :
    (oauth_args nonce now method c_key t_key).map param_name
      = [lit "oauth_nonce", lit "oauth_timestamp"]
        ++ (if has_token_key t_key then [lit "oauth_token"] else [])
        ++ [lit "oauth_consumer_key", lit "oauth_signature_method", lit "oauth_version"] := by
  have h1 : ∀ v, param_name (snprintf_oarg (lit "oauth_nonce=" ++ v)) = lit "oauth_nonce" :=
    fun v => param_name_snprintf_oarg (lit "oauth_nonce") v (by decide) (by decide)
  have h2 : ∀ v, param_name (snprintf_oarg (lit "oauth_timestamp=" ++ v))
      = lit "oauth_timestamp" :=
    fun v => param_name_snprintf_oarg (lit "oauth_timestamp") v (by decide) (by decide)
  have h3 : ∀ v, param_name (snprintf_oarg (lit "oauth_token=" ++ v)) = lit "oauth_token" :=
    fun v => param_name_snprintf_oarg (lit "oauth_token") v (by decide) (by decide)
  have h4 : ∀ v, param_name (snprintf_oarg (lit "oauth_consumer_key=" ++ v))
      = lit "oauth_consumer_key" :=
    fun v => param_name_snprintf_oarg (lit "oauth_consumer_key") v (by decide) (by decide)
  have h5 : ∀ v, param_name (snprintf_oarg (lit "oauth_signature_method=" ++ v))
      = lit "oauth_signature_method" :=
    fun v => param_name_snprintf_oarg (lit "oauth_signature_method") v (by decide) (by decide)
  have h6 : param_name (snprintf_oarg (lit "oauth_version=1.0")) = lit "oauth_version" := by
    decide
  cases t_key with
  | none => simp [oauth_args, has_token_key, h1, h2, h4, h5, h6]
  | some t =>
    by_cases ht : cstr t = []
    · simp [oauth_args, has_token_key, strlen, ht, h1, h2, h4, h5, h6]
    · have hpos : 0 < (cstr t).length := List.length_pos.mpr ht
      simp [oauth_args, has_token_key, strlen, ht, hpos, h1, h2, h3, h4, h5, h6]

/-- C16. The tokens `oauth_sign_url` appends to the parsed list before the
sort have, in this order, the names `oauth_nonce`, `oauth_timestamp`,
`oauth_token`, `oauth_consumer_key`, `oauth_signature_method`,
`oauth_version`, the `oauth_token` token being present exactly when the token
key is neither NULL nor empty; the `oauth_signature_method` token carries
`HMAC_SHA1` for `OA_HMAC`, `RSA-SHA1` for `OA_RSA` and `PLAINTEXT` for
`OA_PLAINTEXT`, and the last token is `oauth_version=1.0`. -/
theorem oauth_args_names (nonce url : List Nat) (now : Int) (method : OAuthMethod)
    (c_key t_key : Option (List Nat)) :
    sign_argv nonce now url method c_key t_key
        = (split_url_parameters url).map
            (fun argv => sort_parameters (argv ++ oauth_args nonce now method c_key t_key)) ∧
      (oauth_args nonce now method c_key t_key).map param_name
        = [lit "oauth_nonce", lit "oauth_timestamp"]
          ++ (if has_token_key t_key then [lit "oauth_token"] else [])
          ++ [lit "oauth_consumer_key", lit "oauth_signature_method", lit "oauth_version"] ∧
      (oauth_args nonce now method c_key t_key).drop
          ((oauth_args nonce now method c_key t_key).length - 2)
        = [lit "oauth_signature_method=" ++
            (match method with
              | .OA_HMAC => lit "HMAC_SHA1"
              | .OA_RSA => lit "RSA-SHA1"
              | .OA_PLAINTEXT => lit "PLAINTEXT"),
           lit "oauth_version=1.0"] := by
  have hm : snprintf_oarg (lit "oauth_signature_method=" ++ method_name method)
      = lit "oauth_signature_method=" ++
          (match method with
            | .OA_HMAC => lit "HMAC_SHA1"
            | .OA_RSA => lit "RSA-SHA1"
            | .OA_PLAINTEXT => lit "PLAINTEXT") := by
    cases method <;> decide
  have hv : snprintf_oarg (lit "oauth_version=1.0") = lit "oauth_version=1.0" := by decide
  refine ⟨rfl, oauth_args_param_names nonce now method c_key t_key, ?_⟩
  cases t_key with
  | none => simp [oauth_args, hm, hv]
  | some t =>
    by_cases ht : cstr t = []
    · simp [oauth_args, strlen, ht, hm, hv]
    · have hpos : 0 < (cstr t).length := List.length_pos.mpr ht
      simp [oauth_args, strlen, hpos, hm, hv]

/-! ## `gen_nonce` -/

theorem nonce_chars_spec :
    strlen nonce_chars = 63 ∧ nonce_chars.length = 63 ∧
      ∀ k < 63, is_nonce_char (nonce_chars.getD k 0) = true := by
  decide

theorem is_nonce_char_ne_zero (c : Nat) (h : is_nonce_char c = true) : c ≠ 0 := by
  intro hc
  subst hc
  simp [is_nonce_char] at h

theorem gen_nonce_mem (RAND_MAX : Nat) (rand : Nat → Nat) :
    ∀ c ∈ gen_nonce RAND_MAX rand, is_nonce_char c = true := by
  intro c hc
  unfold gen_nonce at hc
  simp only [List.mem_map, List.mem_range] at hc
  obtain ⟨i, _, rfl⟩ := hc
  rw [nonce_chars_spec.1]
  exact nonce_chars_spec.2.2 _ (Nat.mod_lt _ (by norm_num))

theorem gen_nonce_length (RAND_MAX : Nat) (rand : Nat → Nat) :
    (gen_nonce RAND_MAX rand).length = 15 + rand 0 * 16 / RAND_MAX := by
  simp [gen_nonce]

/-- C17 (amended). For every value `r` in `[0, RAND_MAX]` returned by the
random source for the length draw, the nonce returned by `gen_nonce` has
length `15 + floor(r*16/RAND_MAX)`, and that length is at least 15 and at most
31; it is 31 exactly when `r = RAND_MAX`. -/
theorem gen_nonce_length_bounds (RAND_MAX : Nat) (rand : Nat → Nat) (hmax : 0 < RAND_MAX)
    (hr : rand 0 ≤ RAND_MAX) :
    strlen (gen_nonce RAND_MAX rand) = 15 + rand 0 * 16 / RAND_MAX ∧
      15 ≤ strlen (gen_nonce RAND_MAX rand) ∧
      strlen (gen_nonce RAND_MAX rand) ≤ 31 ∧
      (strlen (gen_nonce RAND_MAX rand) = 31 ↔ rand 0 = RAND_MAX) := by
  have hlen : strlen (gen_nonce RAND_MAX rand) = 15 + rand 0 * 16 / RAND_MAX := by
    unfold strlen
    rw [cstr_of_ne_zero _ (fun c hc => is_nonce_char_ne_zero c (gen_nonce_mem RAND_MAX rand c hc))]
    exact gen_nonce_length RAND_MAX rand
  have hle : rand 0 * 16 / RAND_MAX ≤ 16 := by
    apply Nat.div_le_of_le_mul
    nlinarith
  have h16 : rand 0 * 16 / RAND_MAX = 16 ↔ rand 0 = RAND_MAX := by
    constructor
    · intro h
      have h1 : 16 * RAND_MAX ≤ rand 0 * 16 := by
        have := (Nat.le_div_iff_mul_le hmax).mp (le_of_eq h.symm)
        omega
      omega
    · intro h
      rw [h, Nat.mul_comm, Nat.mul_div_cancel _ hmax]
  rw [hlen, ← h16]
  generalize rand 0 * 16 / RAND_MAX = q at hle
  exact ⟨rfl, by omega, by omega, by omega⟩

/-- C17 witness: `RAND_MAX = 32767` and a random source that always returns
16384. -/
theorem gen_nonce_length_bounds_witness :
    0 < 32767 ∧ (fun _ : Nat => 16384) 0 ≤ 32767 ∧
      strlen (gen_nonce 32767 (fun _ => 16384)) = 23 ∧
      strlen (gen_nonce 32767 (fun _ => 16384)) ≤ 31 :=
  ⟨by decide, by decide, by decide,
    (gen_nonce_length_bounds 32767 (fun _ => 16384) (by decide) (by decide)).2.2.1⟩

/-- C17 counterexample: with `RAND_MAX = 2147483647` and a length draw equal
to `RAND_MAX` the nonce has 31 characters, more than 30. -/
theorem gen_nonce_length_counterexample :
    (fun _ : Nat => 2147483647) 0 ≤ 2147483647 ∧
      strlen (gen_nonce 2147483647 (fun _ => 2147483647)) = 31 ∧
      ¬ strlen (gen_nonce 2147483647 (fun _ => 2147483647)) ≤ 30 := by
  decide

/-- C18. Whatever values the random source returns, every character of the
nonce returned by `gen_nonce` belongs to the alphabet `[A-Za-z0-9_]`: the
string `chars` has 63 characters, all of that alphabet, and the index
`rand() % 63` is always a position inside it. -/
theorem gen_nonce_alphabet (RAND_MAX : Nat) (rand : Nat → Nat) :
    (∀ c ∈ gen_nonce RAND_MAX rand, is_nonce_char c = true ∧ c ∈ nonce_chars) ∧
      strlen nonce_chars = 63 ∧
      (∀ k, rand k % strlen nonce_chars < nonce_chars.length) ∧
      (∀ c ∈ nonce_chars, is_nonce_char c = true) := by
  refine ⟨fun c hc => ⟨gen_nonce_mem RAND_MAX rand c hc, ?_⟩, nonce_chars_spec.1, fun k => ?_,
    by decide⟩
  · unfold gen_nonce at hc
    simp only [List.mem_map, List.mem_range] at hc
    obtain ⟨i, _, rfl⟩ := hc
    have hlt : rand (i + 1) % strlen nonce_chars < nonce_chars.length := by
      rw [nonce_chars_spec.1, nonce_chars_spec.2.1]
      exact Nat.mod_lt _ (by norm_num)
    rw [List.getD_eq_getElem _ _ hlt]
    exact List.getElem_mem _
  · rw [nonce_chars_spec.1, nonce_chars_spec.2.1]
    exact Nat.mod_lt _ (by norm_num)

/-! ## The output of `oauth_encode_base64` -/

theorem b64_encode_eq_char : ∀ u < 64, oauth_b64_encode u = b64_char u := by decide

theorem b64_char_mem : ∀ u < 64, b64_char u ∈ b64_alphabet := by decide

theorem encode_loop_eq_rfc4648 (mem : List Nat) (n : Nat) (hb : ∀ b ∈ mem, b < 256)
    (hn : n ≤ mem.length) :
    ∀ fuel i, n - i ≤ fuel → encode_loop n mem fuel i = rfc4648_encode ((mem.take n).drop i) := by
  have hget : ∀ j, mem.getD j 0 < 256 := by
    intro j
    rw [List.getD_eq_getElem?_getD]
    cases hj : mem[j]? with
    | none => simp
    | some v => exact hb v (List.getElem?_mem hj)
  intro fuel
  induction fuel with
  | zero =>
    intro i hi
    rw [take_drop_nil mem n i (by omega)]
    rfl
  | succ fuel ih =>
    intro i hi
    by_cases hin : i < n
    · rw [encode_loop, if_pos hin, ih (i + 3) (by omega)]
      have hb1 := hget i
      have hb2 := hget (i + 1)
      have hb3 := hget (i + 2)
      rw [take_drop_step mem n i hn hin]
      by_cases h1 : i + 1 < n
      · rw [take_drop_step mem n (i + 1) hn h1]
        by_cases h2 : i + 2 < n
        · rw [take_drop_step mem n (i + 2) hn h2]
          simp only [h1, h2, if_true]
          rw [enc_b5 _ _ hb2, enc_b6 _ _ hb3, land_63, Nat.shiftRight_eq_div_pow]
          rw [b64_encode_eq_char _ (by omega), b64_encode_eq_char _ (by omega),
            b64_encode_eq_char _ (by omega), b64_encode_eq_char _ (by omega)]
          simp only [rfc4648_encode, List.cons_append, List.nil_append]
          refine congrArg₂ _ (congrArg _ (by omega)) (congrArg₂ _ (congrArg _ (by omega))
            (congrArg₂ _ (congrArg _ (by omega)) (congrArg₂ _ (congrArg _ (by omega)) rfl)))
        · simp only [h1, h2, if_true, if_false]
          rw [enc_b5 _ _ hb2, enc_b6 _ _ (by norm_num), Nat.shiftRight_eq_div_pow]
          rw [b64_encode_eq_char _ (by omega), b64_encode_eq_char _ (by omega),
            b64_encode_eq_char _ (by omega)]
          rw [take_drop_nil mem n (i + 1 + 1) (by omega), take_drop_nil mem n (i + 3) (by omega)]
          simp only [rfc4648_encode, List.cons_append, List.nil_append]
          refine congrArg₂ _ (congrArg _ (by omega)) (congrArg₂ _ (congrArg _ (by omega))
            (congrArg₂ _ (congrArg _ (by omega)) rfl))
      · have h2 : ¬ i + 2 < n := by omega
        simp only [h1, h2, if_false]
        rw [enc_b5 _ _ (by norm_num), Nat.shiftRight_eq_div_pow]
        rw [b64_encode_eq_char _ (by omega), b64_encode_eq_char _ (by omega)]
        rw [take_drop_nil mem n (i + 1) (by omega), take_drop_nil mem n (i + 3) (by omega)]
        simp only [rfc4648_encode, List.cons_append, List.nil_append]
        refine congrArg₂ _ (congrArg _ (by omega)) (congrArg₂ _ (congrArg _ (by omega)) rfl)
    · rw [take_drop_nil mem n i (by omega)]
      simp [encode_loop, hin, rfc4648_encode]

theorem rfc4648_encode_shape (l : List Nat) :
    (rfc4648_encode l).length = 4 * ((l.length + 2) / 3) ∧
      ∃ body, rfc4648_encode l = body ++ List.replicate ((3 - l.length % 3) % 3) 61 ∧
        ∀ c ∈ body, c ∈ b64_alphabet := by
  induction l using rfc4648_encode.induct with
  | case1 => exact ⟨rfl, [], rfl, by simp⟩
  | case2 b1 =>
    refine ⟨by simp [rfc4648_encode], [b64_char (b1 * 65536 / 262144 % 64), b64_char (b1 * 65536 / 4096 % 64)], rfl, ?_⟩
    intro c hc
    simp only [List.mem_cons, List.not_mem_nil, or_false] at hc
    rcases hc with h | h <;> rw [h] <;> exact b64_char_mem _ (Nat.mod_lt _ (by norm_num))
  | case3 b1 b2 =>
    refine ⟨by simp [rfc4648_encode], [b64_char ((b1 * 65536 + b2 * 256) / 262144 % 64),
      b64_char ((b1 * 65536 + b2 * 256) / 4096 % 64),
      b64_char ((b1 * 65536 + b2 * 256) / 64 % 64)], rfl, ?_⟩
    intro c hc
    simp only [List.mem_cons, List.not_mem_nil, or_false] at hc
    rcases hc with h | h | h <;> rw [h] <;> exact b64_char_mem _ (Nat.mod_lt _ (by norm_num))
  | case4 b1 b2 b3 rest ih =>
    obtain ⟨hlen, body, hbody, hmem⟩ := ih
    refine ⟨?_, [b64_char ((b1 * 65536 + b2 * 256 + b3) / 262144 % 64),
      b64_char ((b1 * 65536 + b2 * 256 + b3) / 4096 % 64),
      b64_char ((b1 * 65536 + b2 * 256 + b3) / 64 % 64),
      b64_char ((b1 * 65536 + b2 * 256 + b3) % 64)] ++ body, ?_, ?_⟩
    · simp only [rfc4648_encode, List.length_append, List.length_cons, List.length_nil, hlen]
      omega
    · have hpad : (3 - (b1 :: b2 :: b3 :: rest).length % 3) % 3 = (3 - rest.length % 3) % 3 := by
        simp only [List.length_cons]
        omega
      rw [hpad]
      simp only [rfc4648_encode]
      rw [hbody, List.append_assoc]
    · intro c hc
      rcases List.mem_append.mp hc with h | h
      · simp only [List.mem_cons, List.not_mem_nil, or_false] at h
        rcases h with h | h | h | h <;> rw [h] <;>
          exact b64_char_mem _ (Nat.mod_lt _ (by norm_num))
      · exact hmem c h

/-- For every byte sequence of length `n` with `1 <= n < 2^29` passed with
size `n`, `oauth_encode_base64` returns the RFC 4648 encoding of the sequence
(each output character is the alphabet entry of the corresponding 6-bit slice
of its 3-byte group): a string of exactly `4*ceil(n/3)` characters whose last
`(3 - n mod 3) mod 3` characters are `=` and whose other characters all
belong to the alphabet `A-Z a-z 0-9 + /`; the string and its terminator fit
the buffer of `size*4/3+4` bytes. -/
theorem encode_base64_rfc4648 (mem : List Nat) (n : Nat) (hb : ∀ b ∈ mem, b < 256)
    (h1 : 1 ≤ n) (hn : n ≤ mem.length) (hsz : n * 4 < 2 ^ 31) :
    oauth_encode_base64 n (some mem) = some (rfc4648_encode (mem.take n)) ∧
      (rfc4648_encode (mem.take n)).length = 4 * ((n + 2) / 3) ∧
      (∃ body, rfc4648_encode (mem.take n) = body ++ List.replicate ((3 - n % 3) % 3) 61 ∧
        ∀ c ∈ body, c ∈ b64_alphabet) ∧
      encode_alloc n = some (n * 4 / 3 + 4) ∧
      (rfc4648_encode (mem.take n)).length + 1 ≤ n * 4 / 3 + 4 := by
  have hlen : (mem.take n).length = n := by simp [hn]
  have hshape := rfc4648_encode_shape (mem.take n)
  rw [hlen] at hshape
  have halloc : encode_alloc n = some (n * 4 / 3 + 4) := by
    unfold encode_alloc INT_MAX
    rw [if_pos (by omega)]
  refine ⟨?_, hshape.1, hshape.2, halloc, ?_⟩
  · rw [oauth_encode_base64_of_fit mem n (Or.inl (by omega)) hsz,
      encode_loop_eq_rfc4648 mem n hb hn n 0 (by omega), List.drop_zero]
  · rw [hshape.1]
    omega

/-- Example: the five bytes `abcde`. -/
theorem encode_base64_rfc4648_witness :
    (∀ b ∈ lit "abcde", b < 256) ∧ 1 ≤ 5 ∧ 5 ≤ (lit "abcde").length ∧ 5 * 4 < 2 ^ 31 ∧
      oauth_encode_base64 5 (some (lit "abcde")) = some (lit "YWJjZGU=") ∧
      (rfc4648_encode ((lit "abcde").take 5)).length = 4 * ((5 + 2) / 3) :=
  ⟨by decide, by decide, by decide, by decide, by decide,
    (encode_base64_rfc4648 (lit "abcde") 5 (by decide) (by decide) (by decide)
      (by decide)).2.1⟩

/-- C19 (the code at the failing input). For a byte sequence of `2^29` bytes
passed with size `2^29`, whose encoding of `4*ceil(n/3) = 715827884`
characters would still have a length that fits an `int`, the `int` product
`size*4` of the buffer size overflows and `oauth_encode_base64` returns no
string; one byte less and the buffer size is 715827885. -/
theorem encode_base64_overflow :
    (List.replicate 536870912 0).length = 536870912 ∧
      oauth_encode_base64 536870912 (some (List.replicate 536870912 0)) = none ∧
      encode_alloc 536870912 = none ∧
      INT_MAX < 536870912 * 4 ∧ 536870912 ≤ INT_MAX ∧
      4 * ((536870912 + 2) / 3) = 715827884 ∧ 715827884 ≤ INT_MAX ∧
      encode_alloc 536870911 = some 715827885 := by
  have halloc : encode_alloc 536870912 = none := by decide
  refine ⟨List.length_replicate _ _, ?_, halloc, by decide, by decide, by decide, by decide,
    by decide⟩
  simp only [oauth_encode_base64, halloc]
  rfl

/-! ## Lenient decoding -/

theorem is_base64_char_lt : ∀ c, is_base64_char c = true → c < 256 := by
  intro c hc
  have hall : ∀ x ∈ lit "ABCDEFGHIJKLMNOPQRSTUVWXYZabcdefghijklmnopqrstuvwxyz0123456789+/=",
      x < 256 := by decide
  exact hall c (by simpa [is_base64_char] using hc)

theorem is_base64_eq_small : ∀ c < 256, oauth_b64_is_base64 c = is_base64_char c := by decide!

theorem is_base64_eq (c : Nat) : oauth_b64_is_base64 c = is_base64_char c := by
  by_cases hc : c < 256
  · exact is_base64_eq_small c hc
  · have h1 : oauth_b64_is_base64 c = false := by
      simp only [oauth_b64_is_base64, decide_eq_false_iff_not]
      omega
    have h2 : is_base64_char c = false := by
      by_contra h
      exact hc (is_base64_char_lt c (by simpa using h))
    rw [h1, h2]

theorem decode_base64_eq (s : List Nat) :
    oauth_decode_base64 (some s)
      = (decode_loop ((cstr s).filter is_base64_char) ((cstr s).filter is_base64_char).length
            ((cstr s).filter is_base64_char).length 0,
          (decode_loop ((cstr s).filter is_base64_char)
            ((cstr s).filter is_base64_char).length
            ((cstr s).filter is_base64_char).length 0).length) := by
  have hf : oauth_b64_is_base64 = is_base64_char := funext is_base64_eq
  simp only [oauth_decode_base64, hf]
  split_ifs with h
  · simp [h, decode_loop]
  · rfl

/-- C20. Lenient decode: for every C string `s`, `oauth_decode_base64(s)`
stores the same bytes and returns the same length as on `s` with every
character other than `A-Z a-z 0-9 + / =` removed, so two strings that differ
only in such characters decode alike; a string without any of those
characters, the empty string included, decodes to zero bytes. -/
theorem decode_base64_lenient (s : List Nat) (hs : ∀ c ∈ s, c ≠ 0) :
    oauth_decode_base64 (some s) = oauth_decode_base64 (some (s.filter is_base64_char)) ∧
      (∀ t : List Nat, (∀ c ∈ t, c ≠ 0) → t.filter is_base64_char = s.filter is_base64_char →
        oauth_decode_base64 (some t) = oauth_decode_base64 (some s)) ∧
      ((∀ c ∈ s, is_base64_char c = false) → oauth_decode_base64 (some s) = ([], 0)) ∧
      oauth_decode_base64 (some []) = ([], 0) := by
  have hcs : cstr s = s := cstr_of_ne_zero s hs
  have hcf : cstr (s.filter is_base64_char) = s.filter is_base64_char :=
    cstr_of_ne_zero _ (fun c hc => hs c (List.mem_of_mem_filter hc))
  refine ⟨?_, ?_, ?_, rfl⟩
  · rw [decode_base64_eq, decode_base64_eq, hcs, hcf, List.filter_filter]
    simp
  · intro t ht h
    rw [decode_base64_eq, decode_base64_eq, hcs, cstr_of_ne_zero t ht, h]
  · intro hnone
    have hnil : s.filter is_base64_char = [] := by
      rw [List.filter_eq_nil_iff]
      intro c hc
      simp [hnone c hc]
    rw [decode_base64_eq, hcs, hnil]
    rfl

/-- C20 witness: `YW I=` with a blank inside decodes like `YWI=`, to `ab`. -/
theorem decode_base64_lenient_witness :
    (∀ c ∈ lit "YW I=", c ≠ 0) ∧ (lit "YW I=").filter is_base64_char = lit "YWI=" ∧
      oauth_decode_base64 (some (lit "YW I=")) = (lit "ab", 2) ∧
      oauth_decode_base64 (some (lit "YW I="))
        = oauth_decode_base64 (some ((lit "YW I=").filter is_base64_char)) :=
  ⟨by decide, by decide, by decide, (decode_base64_lenient (lit "YW I=") (by decide)).1⟩

/-! ## The string returned by `oauth_sign_url` -/

theorem result_loop_amp (postargs : Bool) (l : List (List Nat)) :
    ∀ (i : Nat) (r : List Nat),
      result_loop postargs (i + 2) l r = r ++ (l.map (fun a => [38] ++ cstr a)).flatten := by
  induction l with
  | nil => intro i r; simp [result_loop]
  | cons a l ih =>
    intro i r
    rw [result_loop, ih]
    simp

theorem result_loop_post (l : List (List Nat)) :
    result_loop true 1 l [] = List.intercalate [38] (l.map cstr) := by
  cases l with
  | nil => rfl
  | cons a l =>
    rw [List.map_cons, intercalate_cons, result_loop, result_loop_amp]
    simp [List.map_map, Function.comp_def]

theorem result_loop_get (b a : List Nat) (l : List (List Nat)) :
    result_loop false 0 (b :: a :: l) []
      = cstr b ++ [63] ++ List.intercalate [38] ((a :: l).map cstr) := by
  rw [List.map_cons, intercalate_cons, result_loop, result_loop, result_loop_amp]
  simp [List.map_map, Function.comp_def]

theorem map_cstr_of_ne_zero (l : List (List Nat)) (h : ∀ a ∈ l, ∀ c ∈ a, c ≠ 0) :
    l.map cstr = l := by
  induction l with
  | nil => rfl
  | cons a l ih =>
    rw [List.map_cons, cstr_of_ne_zero a (h a (List.mem_cons_self _ _)),
      ih (fun b hb => h b (List.mem_cons_of_mem _ hb))]

theorem split_url_parameters_some (url : List Nat) (toks : List (List Nat))
    (h : split_url_parameters url = some toks) :
    toks = (url_tokens url).filter (fun t => !is_signature_token t) := by
  rw [split_url_parameters_eq] at h
  cases ht : url_tokens url with
  | nil => rw [ht] at h; simp at h; rw [h]; rfl
  | cons t ts =>
    rw [ht] at h
    by_cases hd : is_signature_token t = true
    · simp [hd] at h
    · simp only [hd, if_false, Bool.false_eq_true, Option.some.injEq] at h
      rw [← h, List.filter_cons]
      simp [hd]

theorem oauth_args_length (nonce : List Nat) (now : Int) (method : OAuthMethod)
    (c_key t_key : Option (List Nat)) : 5 ≤ (oauth_args nonce now method c_key t_key).length := by
  unfold oauth_args
  simp only [List.length_append, List.length_cons, List.length_nil]
  omega

theorem sign_argv_some (nonce : List Nat) (now : Int) (url : List Nat) (method : OAuthMethod)
    (c_key t_key : Option (List Nat)) (argv : List (List Nat))
    (h : sign_argv nonce now url method c_key t_key = some argv) :
    ∃ base a rest, argv = base :: a :: rest ∧ (∀ x ∈ argv, ∀ c ∈ x, c ≠ 0) ∧
      ∃ xs, (url_tokens url).filter (fun t => !is_signature_token t)
          ++ oauth_args nonce now method c_key t_key = base :: xs ∧
        (a :: rest) = qsort cmpstringp xs ∧ (a :: rest).Perm xs := by
  unfold sign_argv at h
  cases hs : split_url_parameters url with
  | none => rw [hs] at h; simp at h
  | some toks =>
    rw [hs] at h
    simp only [Option.map_some', Option.some.injEq] at h
    have htoks := split_url_parameters_some url toks hs
    have hz : ∀ x ∈ toks ++ oauth_args nonce now method c_key t_key, ∀ c ∈ x, c ≠ 0 := by
      intro x hx
      rcases List.mem_append.mp hx with h1 | h1
      · rw [htoks] at h1
        exact url_tokens_ne_zero url x (List.mem_of_mem_filter h1)
      · exact oauth_args_ne_zero _ _ _ _ _ x h1
    have hlen : 5 ≤ (toks ++ oauth_args nonce now method c_key t_key).length := by
      rw [List.length_append]
      have := oauth_args_length nonce now method c_key t_key
      omega
    rw [← htoks]
    cases hl : toks ++ oauth_args nonce now method c_key t_key with
    | nil => rw [hl] at hlen; simp at hlen
    | cons base xs =>
      rw [hl] at h hz hlen
      rw [sort_parameters] at h
      have hxs : ∀ y ∈ xs, ∀ c ∈ y, c ≠ 0 := fun y hy => hz y (List.mem_cons_of_mem _ hy)
      have hperm : (qsort cmpstringp xs).Perm xs := by
        rw [qsort_eq xs hxs]; exact List.perm_insertionSort _ xs
      cases hq : qsort cmpstringp xs with
      | nil =>
        have := hperm.length_eq
        rw [hq] at this
        simp only [List.length_cons, List.length_nil] at hlen this
        omega
      | cons a rest =>
        rw [hq] at h hperm
        refine ⟨base, a, rest, h.symm, ?_, xs, rfl, hq.symm, hperm⟩
        intro x hx
        rw [← h] at hx
        rcases List.mem_cons.mp hx with h1 | h1
        · rw [h1]; exact hz base (List.mem_cons_self _ _)
        · exact hxs x (hperm.mem_iff.mp h1)

theorem signature_arg_ne_zero (env : Env) (postargs : Bool) (method : OAuthMethod)
    (c_secret t_secret : Option (List Nat)) (argv : List (List Nat)) :
    ∀ c ∈ signature_arg env postargs method c_secret t_secret argv, c ≠ 0 :=
  snprintf_oarg_ne_zero _ _ (by decide) (url_escape_ne_zero _)

/-- The value of `oauth_sign_url`: in POST mode element 0 of the sorted array
and, stored through `postargs`, the other elements and the signature element
joined with `&`; in GET mode element 0, a `?`, and that same join. -/
theorem oauth_sign_url_eq (env : Env) (url : List Nat) (postargs : Bool) (method : OAuthMethod)
    (c_key c_secret t_key t_secret : Option (List Nat)) :
    oauth_sign_url env url postargs method c_key c_secret t_key t_secret =
      (sign_argv env.nonce env.now url method c_key t_key).map (fun argv =>
        if postargs then
          (argv.headD [], some (List.intercalate [38]
            (argv.tail ++ [signature_arg env postargs method c_secret t_secret argv])))
        else
          (argv.headD [] ++ [63] ++ List.intercalate [38]
            (argv.tail ++ [signature_arg env postargs method c_secret t_secret argv]), none)) := by
  cases h : sign_argv env.nonce env.now url method c_key t_key with
  | none => simp [oauth_sign_url, h]
  | some argv =>
    obtain ⟨base, a, rest, rfl, hz, _⟩ := sign_argv_some _ _ _ _ _ _ argv h
    have hsig := signature_arg_ne_zero env postargs method c_secret t_secret (base :: a :: rest)
    have hall : ∀ x ∈ a :: (rest ++ [signature_arg env postargs method c_secret t_secret
        (base :: a :: rest)]), ∀ c ∈ x, c ≠ 0 := by
      intro x hx
      rcases List.mem_cons.mp hx with h1 | h1
      · rw [h1]; exact hz a (by simp)
      · rcases List.mem_append.mp h1 with h2 | h2
        · exact hz x (by simp [h2])
        · rw [List.mem_singleton.mp h2]; exact hsig
    have hbase : cstr base = base := cstr_of_ne_zero base (hz base (List.mem_cons_self _ _))
    unfold signature_arg at hall ⊢
    simp only [oauth_sign_url, h, Option.map_some']
    cases postargs with
    | true =>
      simp only [if_true, List.cons_append, List.drop_succ_cons, List.drop_zero,
        List.headD_cons, List.tail_cons]
      rw [result_loop_post, map_cstr_of_ne_zero _ hall, hbase]
    | false =>
      simp only [Bool.false_eq_true, if_false, List.cons_append, List.drop_zero,
        List.headD_cons, List.tail_cons]
      rw [result_loop_get, map_cstr_of_ne_zero _ hall, hbase]

/-! ## The RSA-SHA1 method -/

theorem signature_arg_rsa (env : Env) (postargs : Bool) (c_secret t_secret : Option (List Nat))
    (argv : List (List Nat)) :
    signature_arg env postargs .OA_RSA c_secret t_secret argv
      = lit "oauth_signature=RSA-is-not-implemented." := by
  simp only [signature_arg, sign_switch, oauth_sign_rsa_sha1]
  decide

theorem signature_arg_not_hmac (env : Env) (method : OAuthMethod) (hm : method ≠ .OA_HMAC)
    (c_secret t_secret : Option (List Nat)) (argv : List (List Nat)) :
    signature_arg env true method c_secret t_secret argv
      = signature_arg env false method c_secret t_secret argv := by
  cases method with
  | OA_HMAC => exact absurd rfl hm
  | OA_RSA => rw [signature_arg_rsa, signature_arg_rsa]
  | OA_PLAINTEXT => simp only [signature_arg, sign_switch, oauth_sign_plaintext]

/-- C14 counterexample: with an HMAC whose digest is the first three bytes of
the message, the POST body ends in `oauth_signature=UE9T` and the GET URL in
`oauth_signature=R0VU`, so base + `?` + body is not the GET URL. -/
theorem sign_url_post_get_counterexample :
    oauth_sign_url ⟨lit "abc123", 1000000000, fun _ m => (m.take 3, 3)⟩ (lit "http://h/p?a=1")
        true .OA_HMAC (some (lit "ck")) (some (lit "cs")) none none
      = some (lit "http://h/p", some (lit "a=1&oauth_consumer_key=ck&oauth_nonce=abc123&oauth_signature_method=HMAC_SHA1&oauth_timestamp=1000000000&oauth_version=1.0&oauth_signature=UE9T")) ∧
    oauth_sign_url ⟨lit "abc123", 1000000000, fun _ m => (m.take 3, 3)⟩ (lit "http://h/p?a=1")
        false .OA_HMAC (some (lit "ck")) (some (lit "cs")) none none
      = some (lit "http://h/p?a=1&oauth_consumer_key=ck&oauth_nonce=abc123&oauth_signature_method=HMAC_SHA1&oauth_timestamp=1000000000&oauth_version=1.0&oauth_signature=R0VU", none) ∧
    lit "http://h/p" ++ [63] ++ lit "a=1&oauth_consumer_key=ck&oauth_nonce=abc123&oauth_signature_method=HMAC_SHA1&oauth_timestamp=1000000000&oauth_version=1.0&oauth_signature=UE9T"
      ≠ lit "http://h/p?a=1&oauth_consumer_key=ck&oauth_nonce=abc123&oauth_signature_method=HMAC_SHA1&oauth_timestamp=1000000000&oauth_version=1.0&oauth_signature=R0VU" := by
  decide!

/-! ## GET mode -/

theorem intercalate_append_singleton (sep x : List Nat) (l : List (List Nat)) (hl : l ≠ []) :
    List.intercalate sep (l ++ [x]) = List.intercalate sep l ++ sep ++ x := by
  cases l with
  | nil => exact absurd rfl hl
  | cons a l =>
    rw [List.cons_append, intercalate_cons, intercalate_cons]
    simp

theorem sign_argv_of_tokens (nonce : List Nat) (now : Int) (url : List Nat) (method : OAuthMethod)
    (c_key t_key : Option (List Nat)) (base : List Nat) (rest : List (List Nat))
    (htok : url_tokens url = base :: rest) (hbase : is_signature_token base = false) :
    sign_argv nonce now url method c_key t_key
      = some (base :: qsort cmpstringp (rest.filter (fun t => !is_signature_token t)
          ++ oauth_args nonce now method c_key t_key)) := by
  unfold sign_argv
  rw [split_url_parameters_eq, htok]
  simp [hbase, sort_parameters]

theorem url_tokens_aux_no_delim (s : List Nat) :
    ∀ cur : List Nat, (∀ c ∈ cur, isDelim c = false) →
      ∀ t ∈ url_tokens_aux cur s, ∀ c ∈ t, isDelim c = false := by
  induction s with
  | nil =>
    intro cur hcur t ht
    rw [url_tokens_aux] at ht
    split_ifs at ht
    · simp at ht
    · rw [List.mem_singleton.mp ht]; exact hcur
  | cons d s ih =>
    intro cur hcur t ht
    rw [url_tokens_aux] at ht
    split_ifs at ht with h1 h2
    · exact ih [] (by simp) t (by simpa using ht)
    · rcases List.mem_append.mp ht with h | h
      · rw [List.mem_singleton.mp h]; exact hcur
      · exact ih [] (by simp) t h
    · refine ih (cur ++ [d]) ?_ t ht
      intro c hc
      rcases List.mem_append.mp hc with h | h
      · exact hcur c h
      · rw [List.mem_singleton.mp h]; simpa using h1

theorem sign_odat_eq (postargs : Bool) (argv : List (List Nat)) :
    sign_odat postargs argv
      = (if postargs then lit "POST" else lit "GET") ++ [38]
        ++ url_escape (some (argv.headD [])) ++ [38]
        ++ url_escape (some (serialize_url_parameters argv)) := by
  have hP : url_escape (some (lit "POST")) = lit "POST" := by decide
  have hG : url_escape (some (lit "GET")) = lit "GET" := by decide
  cases postargs <;> simp [sign_odat, catenc, catenc_loop, hP, hG]

/-- C14 (amended). POST mode split: for every URL whose first token `base`
does not begin with `oauth_signature`, `base` is element 0 of the parsed list
and contains no `?` or `&`; signing in POST mode returns `base` and a body,
and signing the same input in GET mode with the same nonce and timestamp
returns `base`, `?` and the same parameters, except that the final
`oauth_signature` parameter is computed in POST mode over a base string that
begins with `POST` and in GET mode over one that begins with `GET`; for
`OA_PLAINTEXT` and `OA_RSA`, whose signature does not depend on the base
string, base + `?` + body is exactly the GET URL. -/
theorem sign_url_post_get (env : Env) (url : List Nat) (method : OAuthMethod)
    (c_key c_secret t_key t_secret : Option (List Nat)) (base : List Nat)
    (rest params : List (List Nat))
    (htok : url_tokens url = base :: rest) (hbase : is_signature_token base = false)
    (hparams : params = qsort cmpstringp (rest.filter (fun t => !is_signature_token t)
      ++ oauth_args env.nonce env.now method c_key t_key)) :
    split_url_parameters url = some (base :: rest.filter (fun t => !is_signature_token t)) ∧
      (∀ c ∈ base, isDelim c = false) ∧
      oauth_sign_url env url true method c_key c_secret t_key t_secret
        = some (base, some (List.intercalate [38]
            (params ++ [signature_arg env true method c_secret t_secret (base :: params)]))) ∧
      oauth_sign_url env url false method c_key c_secret t_key t_secret
        = some (base ++ [63] ++ List.intercalate [38]
            (params ++ [signature_arg env false method c_secret t_secret (base :: params)]),
            none) ∧
      (∀ postargs, sign_odat postargs (base :: params)
        = (if postargs then lit "POST" else lit "GET") ++ [38] ++ url_escape (some base)
          ++ [38] ++ url_escape (some (serialize_url_parameters (base :: params)))) ∧
      (method ≠ .OA_HMAC →
        oauth_sign_url env url false method c_key c_secret t_key t_secret
          = some (base ++ [63] ++ List.intercalate [38]
              (params ++ [signature_arg env true method c_secret t_secret (base :: params)]),
              none)) := by
  have hargv := sign_argv_of_tokens env.nonce env.now url method c_key t_key base rest htok hbase
  rw [← hparams] at hargv
  have hsplit : split_url_parameters url
      = some (base :: rest.filter (fun t => !is_signature_token t)) := by
    rw [split_url_parameters_eq, htok]
    simp [hbase]
  have hdelim : ∀ c ∈ base, isDelim c = false := by
    apply url_tokens_aux_no_delim (cstr url) [] (by simp) base
    have : base ∈ url_tokens url := by rw [htok]; exact List.mem_cons_self _ _
    exact this
  have hpost : oauth_sign_url env url true method c_key c_secret t_key t_secret
      = some (base, some (List.intercalate [38]
          (params ++ [signature_arg env true method c_secret t_secret (base :: params)]))) := by
    rw [oauth_sign_url_eq, hargv]
    simp
  have hget : oauth_sign_url env url false method c_key c_secret t_key t_secret
      = some (base ++ [63] ++ List.intercalate [38]
          (params ++ [signature_arg env false method c_secret t_secret (base :: params)]),
          none) := by
    rw [oauth_sign_url_eq, hargv]
    simp
  refine ⟨hsplit, hdelim, hpost, hget, fun p => ?_, fun hm => ?_⟩
  · rw [sign_odat_eq]
    rfl
  · rw [hget, signature_arg_not_hmac env method hm]

/-- C14 witness: `http://h/p?b=2&a=1` signed with the PLAINTEXT method; the
body of POST mode after the base and `?` is the URL of GET mode. -/
theorem sign_url_post_get_witness :
    url_tokens (lit "http://h/p?b=2&a=1") = lit "http://h/p" :: [lit "b=2", lit "a=1"] ∧
      is_signature_token (lit "http://h/p") = false ∧
      OAuthMethod.OA_PLAINTEXT ≠ OAuthMethod.OA_HMAC ∧
      oauth_sign_url ⟨lit "abc123", 1000000000, fun _ _ => ([], 0)⟩ (lit "http://h/p?b=2&a=1")
          true .OA_PLAINTEXT (some (lit "ck")) (some (lit "cs")) none none
        = some (lit "http://h/p", some (lit "a=1&b=2&oauth_consumer_key=ck&oauth_nonce=abc123&oauth_signature_method=PLAINTEXT&oauth_timestamp=1000000000&oauth_version=1.0&oauth_signature=cs%26")) ∧
      oauth_sign_url ⟨lit "abc123", 1000000000, fun _ _ => ([], 0)⟩ (lit "http://h/p?b=2&a=1")
          false .OA_PLAINTEXT (some (lit "ck")) (some (lit "cs")) none none
        = some (lit "http://h/p" ++ [63] ++ List.intercalate [38]
            ([lit "a=1", lit "b=2", lit "oauth_consumer_key=ck", lit "oauth_nonce=abc123",
                lit "oauth_signature_method=PLAINTEXT", lit "oauth_timestamp=1000000000",
                lit "oauth_version=1.0"]
              ++ [signature_arg ⟨lit "abc123", 1000000000, fun _ _ => ([], 0)⟩ true
                    .OA_PLAINTEXT (some (lit "cs")) none
                    (lit "http://h/p" :: [lit "a=1", lit "b=2", lit "oauth_consumer_key=ck",
                      lit "oauth_nonce=abc123", lit "oauth_signature_method=PLAINTEXT",
                      lit "oauth_timestamp=1000000000", lit "oauth_version=1.0"])]), none) :=
  ⟨by decide, by decide, by decide, by decide!,
    (sign_url_post_get ⟨lit "abc123", 1000000000, fun _ _ => ([], 0)⟩ (lit "http://h/p?b=2&a=1")
      .OA_PLAINTEXT (some (lit "ck")) (some (lit "cs")) none none (lit "http://h/p")
      [lit "b=2", lit "a=1"]
      [lit "a=1", lit "b=2", lit "oauth_consumer_key=ck", lit "oauth_nonce=abc123",
        lit "oauth_signature_method=PLAINTEXT", lit "oauth_timestamp=1000000000",
        lit "oauth_version=1.0"]
      (by decide) (by decide) (by decide)).2.2.2.2.2 (by decide)⟩

/-- C13 (amended). In GET mode, for every input URL whose first token `base`
does not begin with `oauth_signature`, and when the signature parameter fits
the buffer `oarg`, the string returned by `oauth_sign_url` equals base + `?` +
R + `&oauth_signature=` + `url_escape(signature)`, where R is the `&`-join of
the sorted original and `oauth_*` tokens as they stand in `argv`, not
percent-encoded again; R is the string `serialize_url_parameters` produced
for the signing base string when serialization leaves every token unchanged. -/
theorem sign_url_get (env : Env) (url : List Nat) (method : OAuthMethod)
    (c_key c_secret t_key t_secret : Option (List Nat)) (base : List Nat)
    (rest params : List (List Nat))
    (htok : url_tokens url = base :: rest) (hbase : is_signature_token base = false)
    (hparams : params = qsort cmpstringp (rest.filter (fun t => !is_signature_token t)
      ++ oauth_args env.nonce env.now method c_key t_key))
    (hfit : (lit "oauth_signature=" ++ url_escape (sign_switch env method
      (sign_odat false (base :: params)) (sign_okey c_secret t_secret))).length ≤ 1023) :
    oauth_sign_url env url false method c_key c_secret t_key t_secret
        = some (base ++ [63] ++ List.intercalate [38] params ++ lit "&oauth_signature="
            ++ url_escape (sign_switch env method (sign_odat false (base :: params))
                (sign_okey c_secret t_secret)), none) ∧
      ((∀ a ∈ params, serialize_param a = a) →
        List.intercalate [38] params = serialize_url_parameters (base :: params)) := by
  have hargv := sign_argv_of_tokens env.nonce env.now url method c_key t_key base rest htok hbase
  rw [← hparams] at hargv
  obtain ⟨b, a, r, heq, _, _⟩ := sign_argv_some _ _ _ _ _ _ _ hargv
  have hne : params ≠ [] := by
    simp only [List.cons.injEq] at heq
    rw [heq.2]
    simp
  constructor
  · rw [oauth_sign_url_eq, hargv]
    simp only [Option.map_some', Bool.false_eq_true, if_false, List.headD_cons, List.tail_cons,
      Option.some.injEq, Prod.mk.injEq, and_true]
    rw [intercalate_append_singleton _ _ _ hne, signature_arg, snprintf_oarg,
      List.take_of_length_le hfit]
    have : lit "&oauth_signature=" = [38] ++ lit "oauth_signature=" := by decide
    rw [this]
    simp only [List.append_assoc]
  · intro hser
    rw [serialize_eq, List.drop_succ_cons, List.drop_zero, List.map_congr_left hser, List.map_id']

/-- C13 witness: `http://h/p?b=2&a=1` signed with the PLAINTEXT method. -/
theorem sign_url_get_witness :
    url_tokens (lit "http://h/p?b=2&a=1") = lit "http://h/p" :: [lit "b=2", lit "a=1"] ∧
      is_signature_token (lit "http://h/p") = false ∧
      oauth_sign_url ⟨lit "abc123", 1000000000, fun _ _ => ([], 0)⟩ (lit "http://h/p?b=2&a=1")
          false .OA_PLAINTEXT (some (lit "ck")) (some (lit "cs")) none none
        = some (lit "http://h/p" ++ [63]
            ++ List.intercalate [38] [lit "a=1", lit "b=2", lit "oauth_consumer_key=ck",
                lit "oauth_nonce=abc123", lit "oauth_signature_method=PLAINTEXT",
                lit "oauth_timestamp=1000000000", lit "oauth_version=1.0"]
            ++ lit "&oauth_signature="
            ++ url_escape (sign_switch ⟨lit "abc123", 1000000000, fun _ _ => ([], 0)⟩
                .OA_PLAINTEXT
                (sign_odat false (lit "http://h/p" :: [lit "a=1", lit "b=2",
                  lit "oauth_consumer_key=ck", lit "oauth_nonce=abc123",
                  lit "oauth_signature_method=PLAINTEXT", lit "oauth_timestamp=1000000000",
                  lit "oauth_version=1.0"]))
                (sign_okey (some (lit "cs")) none)), none) :=
  ⟨by decide, by decide,
    (sign_url_get ⟨lit "abc123", 1000000000, fun _ _ => ([], 0)⟩ (lit "http://h/p?b=2&a=1")
      .OA_PLAINTEXT (some (lit "ck")) (some (lit "cs")) none none (lit "http://h/p")
      [lit "b=2", lit "a=1"]
      [lit "a=1", lit "b=2", lit "oauth_consumer_key=ck", lit "oauth_nonce=abc123",
        lit "oauth_signature_method=PLAINTEXT", lit "oauth_timestamp=1000000000",
        lit "oauth_version=1.0"]
      (by decide) (by decide) (by decide) (by decide)).1⟩

/-- C13 counterexample: for `http://h/p?a b=1` the returned URL carries the
token `a b=1` as it stands, while the string `serialize_url_parameters`
produced for the signing base string carries `a%20b=1`. -/
theorem sign_url_get_counterexample :
    oauth_sign_url ⟨lit "abc123", 1000000000, fun _ _ => ([], 0)⟩ (lit "http://h/p?a b=1") false
        .OA_PLAINTEXT (some (lit "ck")) (some (lit "cs")) none none
      = some (lit "http://h/p?a b=1&oauth_consumer_key=ck&oauth_nonce=abc123&oauth_signature_method=PLAINTEXT&oauth_timestamp=1000000000&oauth_version=1.0&oauth_signature=cs%26", none) ∧
    (sign_argv (lit "abc123") 1000000000 (lit "http://h/p?a b=1") .OA_PLAINTEXT
        (some (lit "ck")) none).map (fun argv =>
          argv.headD [] ++ [63] ++ serialize_url_parameters argv ++ lit "&oauth_signature="
            ++ url_escape (sign_switch ⟨lit "abc123", 1000000000, fun _ _ => ([], 0)⟩
                .OA_PLAINTEXT (sign_odat false argv) (sign_okey (some (lit "cs")) none)))
      = some (lit "http://h/p?a%20b=1&oauth_consumer_key=ck&oauth_nonce=abc123&oauth_signature_method=PLAINTEXT&oauth_timestamp=1000000000&oauth_version=1.0&oauth_signature=cs%26") ∧
    lit "http://h/p?a b=1&oauth_consumer_key=ck&oauth_nonce=abc123&oauth_signature_method=PLAINTEXT&oauth_timestamp=1000000000&oauth_version=1.0&oauth_signature=cs%26"
      ≠ lit "http://h/p?a%20b=1&oauth_consumer_key=ck&oauth_nonce=abc123&oauth_signature_method=PLAINTEXT&oauth_timestamp=1000000000&oauth_version=1.0&oauth_signature=cs%26" := by
  decide!

/-! ## URLs without a usable first token -/

theorem sign_argv_no_token (nonce : List Nat) (now : Int) (url : List Nat) (method : OAuthMethod)
    (c_key t_key : Option (List Nat)) (h : url_tokens url = []) :
    (sign_argv nonce now url method c_key t_key).map (fun argv => argv.headD [])
      = some (snprintf_oarg (lit "oauth_nonce=" ++ cstr nonce)) := by
  unfold sign_argv
  rw [split_url_parameters_eq, h]
  simp [oauth_args, sort_parameters]

/-- C15 (the code at the failing input). For the empty URL, and for a URL
made only of `&` and `?`, element 0 of the array is the first parameter
`oauth_sign_url` adds: the returned base is `oauth_nonce=` followed by the
nonce, not the empty string, and the parameter string holds the other
parameters without `oauth_nonce`. -/
theorem sign_url_empty_url :
    (∀ (env : Env) (method : OAuthMethod) (c_key c_secret t_key t_secret : Option (List Nat)),
      (oauth_sign_url env [] true method c_key c_secret t_key t_secret).map Prod.fst
        = some (snprintf_oarg (lit "oauth_nonce=" ++ cstr env.nonce))) ∧
    oauth_sign_url ⟨lit "abc123", 1000000000, fun _ _ => ([], 0)⟩ (lit "") true .OA_PLAINTEXT
        (some (lit "ck")) (some (lit "cs")) none none
      = some (lit "oauth_nonce=abc123", some (lit "oauth_consumer_key=ck&oauth_signature_method=PLAINTEXT&oauth_timestamp=1000000000&oauth_version=1.0&oauth_signature=cs%26")) ∧
    oauth_sign_url ⟨lit "abc123", 1000000000, fun _ _ => ([], 0)⟩ (lit "&?") true .OA_PLAINTEXT
        (some (lit "ck")) (some (lit "cs")) none none
      = some (lit "oauth_nonce=abc123", some (lit "oauth_consumer_key=ck&oauth_signature_method=PLAINTEXT&oauth_timestamp=1000000000&oauth_version=1.0&oauth_signature=cs%26")) ∧
    oauth_sign_url ⟨lit "abc123", 1000000000, fun _ _ => ([], 0)⟩ (lit "") false .OA_PLAINTEXT
        (some (lit "ck")) (some (lit "cs")) none none
      = some (lit "oauth_nonce=abc123?oauth_consumer_key=ck&oauth_signature_method=PLAINTEXT&oauth_timestamp=1000000000&oauth_version=1.0&oauth_signature=cs%26", none) := by
  refine ⟨?_, by decide!, by decide!, by decide!⟩
  intro env method c_key c_secret t_key t_secret
  rw [oauth_sign_url_eq, Option.map_map]
  exact sign_argv_no_token env.nonce env.now [] method c_key t_key (by decide)

/-! ## The `oauth_signature` parameter -/

theorem param_name_signature_arg (env : Env) (postargs : Bool) (method : OAuthMethod)
    (c_secret t_secret : Option (List Nat)) (argv : List (List Nat)) :
    param_name (signature_arg env postargs method c_secret t_secret argv)
      = lit "oauth_signature" :=
  param_name_snprintf_oarg (lit "oauth_signature") _ (by decide) (by decide)

theorem param_name_ne_signature (t : List Nat) (h : is_signature_token t = false) :
    param_name t ≠ lit "oauth_signature" := by
  intro hn
  have hpre : param_name t <+: t := List.takeWhile_prefix _
  have htake : t.take 15 = lit "oauth_signature" := by
    have := List.prefix_iff_eq_take.mp hpre
    rw [hn] at this
    exact this.symm
  have hmap : (lit "oauth_signature").map tolower = lit "oauth_signature" := by decide
  simp [is_signature_token, htake, hmap] at h

/-- Whenever `oauth_sign_url` returns, the parameters it joins after element 0
are the sorted tokens, none of them named `oauth_signature`, followed by the
signature element, whose name is `oauth_signature`. -/
theorem sign_url_one_signature (env : Env) (url : List Nat) (postargs : Bool)
    (method : OAuthMethod) (c_key c_secret t_key t_secret : Option (List Nat))
    (argv : List (List Nat))
    (h : sign_argv env.nonce env.now url method c_key t_key = some argv) :
    oauth_sign_url env url postargs method c_key c_secret t_key t_secret
        = some (if postargs then
            (argv.headD [], some (List.intercalate [38]
              (argv.tail ++ [signature_arg env postargs method c_secret t_secret argv])))
          else
            (argv.headD [] ++ [63] ++ List.intercalate [38]
              (argv.tail ++ [signature_arg env postargs method c_secret t_secret argv]),
              none)) ∧
      param_name (signature_arg env postargs method c_secret t_secret argv)
        = lit "oauth_signature" ∧
      ∀ a ∈ argv.tail, param_name a ≠ lit "oauth_signature" := by
  refine ⟨by rw [oauth_sign_url_eq, h]; rfl, param_name_signature_arg _ _ _ _ _ _, ?_⟩
  obtain ⟨base, a, rest, rfl, _, xs, hxs, _, hperm⟩ := sign_argv_some _ _ _ _ _ _ argv h
  intro x hx
  rw [List.tail_cons] at hx
  have hmem : x ∈ (url_tokens url).filter (fun t => !is_signature_token t)
      ++ oauth_args env.nonce env.now method c_key t_key := by
    rw [hxs]
    exact List.mem_cons_of_mem _ (hperm.mem_iff.mp hx)
  rcases List.mem_append.mp hmem with h1 | h1
  · have := (List.mem_filter.mp h1).2
    exact param_name_ne_signature x (by simpa using this)
  · have hin : param_name x ∈ (oauth_args env.nonce env.now method c_key t_key).map param_name :=
      List.mem_map_of_mem _ h1
    rw [oauth_args_param_names] at hin
    intro hn
    rw [hn] at hin
    have hnot : lit "oauth_signature" ∉ [lit "oauth_nonce", lit "oauth_timestamp",
        lit "oauth_token", lit "oauth_consumer_key", lit "oauth_signature_method",
        lit "oauth_version"] := by decide
    apply hnot
    simp only [List.mem_append, List.mem_cons, List.not_mem_nil, or_false] at hin ⊢
    rcases hin with (h2 | h2) | h2
    · rcases h2 with h3 | h3
      · exact Or.inl h3
      · exact Or.inr (Or.inl h3)
    · split_ifs at h2
      · simp only [List.mem_singleton] at h2
        exact Or.inr (Or.inr (Or.inl h2))
      · simp at h2
    · rcases h2 with h3 | h3 | h3
      · exact Or.inr (Or.inr (Or.inr (Or.inl h3)))
      · exact Or.inr (Or.inr (Or.inr (Or.inr (Or.inl h3))))
      · exact Or.inr (Or.inr (Or.inr (Or.inr (Or.inr h3))))

/-- C11 (the code at the failing input). On the URL `oauth_signature=xyz&a=1`,
which carries an `oauth_signature` parameter as its first token,
`oauth_sign_url` returns nothing, in either mode and for every method and
credentials: the loop of `split_url_parameters` never ends. -/
theorem sign_url_first_token_signature :
    (∀ fuel, split_loop fuel (split_init (lit "oauth_signature=xyz&a=1")) = none) ∧
      ∀ (env : Env) (postargs : Bool) (method : OAuthMethod)
        (c_key c_secret t_key t_secret : Option (List Nat)),
        oauth_sign_url env (lit "oauth_signature=xyz&a=1") postargs method c_key c_secret
          t_key t_secret = none := by
  refine ⟨fun fuel => ?_, ?_⟩
  · exact split_loop_stuck (lit "oauth_signature=xyz") (by decide) fuel _ _ _ (lit "a=1")
      (by decide)
  · intro env postargs method c_key c_secret t_key t_secret
    have hs : split_url_parameters (lit "oauth_signature=xyz&a=1") = none := by decide
    simp [oauth_sign_url, sign_argv, hs]

/-! ## The buffer of `url_escape` -/

theorem url_escape_state_succ (mem : List Nat) (k : Nat) (hk : k < strlen mem) :
    url_escape_state mem (k + 1)
      = url_escape_step (url_escape_state mem k) ((cstr mem).getD k 0) := by
  unfold url_escape_state
  have hk' : k < (cstr mem).length := hk
  rw [List.take_succ, List.foldl_append, List.getElem?_eq_getElem hk',
    List.getD_eq_getElem _ _ hk']
  rfl

theorem url_escape_eq_state (mem : List Nat) :
    url_escape (some mem) = (url_escape_state mem (strlen mem)).ns := by
  unfold url_escape url_escape_state strlen
  rw [List.take_length]

theorem url_escape_step_capacity (n r : Nat) (st : EscState) (c : Nat) (hr : r + 1 ≤ n)
    (h1 : st.strindex + (r + 1) + 1 = st.newlen) (h2 : st.newlen ≤ st.alloc)
    (h3 : n + 1 ≤ st.alloc) :
    (url_escape_step st c).strindex + r + 1 = (url_escape_step st c).newlen ∧
      (url_escape_step st c).newlen ≤ (url_escape_step st c).alloc ∧
      n + 1 ≤ (url_escape_step st c).alloc ∧
      (if url_escape_case (c % 256) then
          st.strindex + 1 ≤ st.alloc ∧ (url_escape_step st c).alloc = st.alloc
        else
          st.strindex + 4 ≤ (url_escape_step st c).alloc ∧
            ((url_escape_step st c).alloc = st.alloc ∨
              (url_escape_step st c).alloc = 2 * st.alloc)) := by
  unfold url_escape_step
  by_cases hc : url_escape_case (c % 256) = true
  · simp only [hc, if_true]
    exact ⟨by omega, h2, h3, by omega, trivial⟩
  · simp only [hc, if_false, Bool.false_eq_true]
    by_cases hg : st.newlen + 2 > st.alloc
    · simp only [hg, if_true]
      refine ⟨by omega, by omega, by omega, by omega, Or.inr (by omega)⟩
    · simp only [hg, if_false]
      exact ⟨by omega, by omega, h3, by omega, Or.inl trivial⟩

theorem url_escape_foldl_capacity (n : Nat) (l : List Nat) :
    ∀ (st : EscState) (r : Nat), l.length + r ≤ n →
      st.strindex + (l.length + r) + 1 = st.newlen → st.newlen ≤ st.alloc →
      n + 1 ≤ st.alloc →
      (l.foldl url_escape_step st).strindex + r + 1 = (l.foldl url_escape_step st).newlen ∧
        (l.foldl url_escape_step st).newlen ≤ (l.foldl url_escape_step st).alloc ∧
        n + 1 ≤ (l.foldl url_escape_step st).alloc := by
  induction l with
  | nil => intro st r _ h1 h2 h3; exact ⟨by simpa using h1, h2, h3⟩
  | cons c l ih =>
    intro st r hn h1 h2 h3
    simp only [List.length_cons] at hn h1
    obtain ⟨g1, g2, g3, _⟩ := url_escape_step_capacity n (l.length + r) st c (by omega)
      (by omega) h2 h3
    rw [List.foldl_cons]
    exact ih _ r (by omega) g1 g2 g3

theorem url_escape_state_capacity (mem : List Nat) (k : Nat) (hk : k ≤ strlen mem) :
    (url_escape_state mem k).strindex + (strlen mem - k) + 1 = (url_escape_state mem k).newlen ∧
      (url_escape_state mem k).newlen ≤ (url_escape_state mem k).alloc ∧
      strlen mem + 1 ≤ (url_escape_state mem k).alloc := by
  unfold url_escape_state
  have hlen : ((cstr mem).take k).length = k := by
    rw [List.length_take]
    exact Nat.min_eq_left hk
  apply url_escape_foldl_capacity (strlen mem) ((cstr mem).take k) (url_escape_init mem)
    (strlen mem - k)
  · rw [hlen]; omega
  · rw [hlen]; simp only [url_escape_init]; omega
  · simp [url_escape_init]
  · simp [url_escape_init]

theorem url_escape_foldl_count (l : List Nat) :
    ∀ st : EscState,
      (l.foldl url_escape_step st).strindex
          = st.strindex + l.length
            + 2 * (l.filter (fun c => !url_escape_case (c % 256))).length ∧
        (l.foldl url_escape_step st).newlen
          = st.newlen + 2 * (l.filter (fun c => !url_escape_case (c % 256))).length ∧
        (l.foldl url_escape_step st).ns.length
          = st.ns.length + l.length
            + 2 * (l.filter (fun c => !url_escape_case (c % 256))).length := by
  induction l with
  | nil => intro st; simp
  | cons c l ih =>
    intro st
    rw [List.foldl_cons]
    obtain ⟨i1, i2, i3⟩ := ih (url_escape_step st c)
    by_cases hc : url_escape_case (c % 256) = true
    · have s1 : (url_escape_step st c).strindex = st.strindex + 1 := by
        simp [url_escape_step, hc]
      have s2 : (url_escape_step st c).newlen = st.newlen := by simp [url_escape_step, hc]
      have s3 : (url_escape_step st c).ns.length = st.ns.length + 1 := by
        simp [url_escape_step, hc]
      have hf : ((c :: l).filter (fun c => !url_escape_case (c % 256))).length
          = (l.filter (fun c => !url_escape_case (c % 256))).length := by
        simp [List.filter_cons, hc]
      rw [hf, List.length_cons]
      omega
    · simp only [Bool.not_eq_true] at hc
      have s1 : (url_escape_step st c).strindex = st.strindex + 3 := by
        simp [url_escape_step, hc]
      have s2 : (url_escape_step st c).newlen = st.newlen + 2 := by simp [url_escape_step, hc]
      have s3 : (url_escape_step st c).ns.length = st.ns.length + 3 := by
        simp [url_escape_step, hc]
      have hf : ((c :: l).filter (fun c => !url_escape_case (c % 256))).length
          = (l.filter (fun c => !url_escape_case (c % 256))).length + 1 := by
        simp [List.filter_cons, hc]
      rw [hf, List.length_cons]
      omega

/-- C23. Buffer-capacity invariant of `url_escape`: for every input string of
length `n`, `alloc` starts at `n+1`; in every pass the byte stored for a
passed-through character, and the four bytes `snprintf` stores for an escape,
end within the current `alloc`, which is doubled at most once, and only for an
escaped byte; after every pass `newlen` is at most `alloc`; and at the end the
terminator is stored within `alloc`, the output having `n` plus twice the
number of escaped bytes characters. -/
theorem url_escape_capacity (mem : List Nat) :
    (url_escape_state mem 0).alloc = strlen mem + 1 ∧
      (∀ k, k < strlen mem →
        url_escape_state mem (k + 1)
            = url_escape_step (url_escape_state mem k) ((cstr mem).getD k 0) ∧
          (if url_escape_case ((cstr mem).getD k 0 % 256) then
              (url_escape_state mem k).strindex + 1 ≤ (url_escape_state mem k).alloc ∧
                (url_escape_state mem (k + 1)).alloc = (url_escape_state mem k).alloc
            else
              (url_escape_state mem k).strindex + 4 ≤ (url_escape_state mem (k + 1)).alloc ∧
                ((url_escape_state mem (k + 1)).alloc = (url_escape_state mem k).alloc ∨
                  (url_escape_state mem (k + 1)).alloc
                    = 2 * (url_escape_state mem k).alloc)) ∧
          (url_escape_state mem (k + 1)).newlen ≤ (url_escape_state mem (k + 1)).alloc) ∧
      url_escape (some mem) = (url_escape_state mem (strlen mem)).ns ∧
      (url_escape_state mem (strlen mem)).ns.length
        = (url_escape_state mem (strlen mem)).strindex ∧
      (url_escape_state mem (strlen mem)).strindex + 1
        ≤ (url_escape_state mem (strlen mem)).alloc ∧
      (url_escape_state mem (strlen mem)).strindex
        = strlen mem + 2 * ((cstr mem).filter (fun c => !url_escape_case (c % 256))).length ∧
      (url_escape_state mem (strlen mem)).newlen
        = strlen mem + 2 * ((cstr mem).filter (fun c => !url_escape_case (c % 256))).length
          + 1 := by
  have hfin := url_escape_state_capacity mem (strlen mem) (le_refl _)
  have hcount := url_escape_foldl_count (cstr mem) (url_escape_init mem)
  have hstate : url_escape_state mem (strlen mem)
      = (cstr mem).foldl url_escape_step (url_escape_init mem) := by
    unfold url_escape_state strlen
    rw [List.take_length]
  refine ⟨rfl, ?_, url_escape_eq_state mem, ?_, by omega, ?_, ?_⟩
  · intro k hk
    have hst := url_escape_state_capacity mem k (le_of_lt hk)
    have hstep := url_escape_step_capacity (strlen mem) (strlen mem - (k + 1))
      (url_escape_state mem k) ((cstr mem).getD k 0) (by omega) (by omega) hst.2.1 hst.2.2
    rw [url_escape_state_succ mem k hk]
    exact ⟨rfl, hstep.2.2.2, hstep.2.1⟩
  · rw [hstate, hcount.1, hcount.2.2]
    simp [url_escape_init]
  · rw [hstate, hcount.1]
    simp [url_escape_init, strlen]
  · rw [hstate, hcount.2.1]
    simp only [url_escape_init, strlen]
    omega

/-! ## The passes of the loop of `split_url_parameters` -/

theorem split_loop_succ (fuel : Nat) (st : SplitState) :
    split_loop (fuel + 1) st =
      match split_pass st with
      | none => some st.argv
      | some st' => split_loop fuel st' := by
  obtain ⟨tmp, saved, argv⟩ := st
  cases tmp with
  | none =>
    simp only [split_loop, split_pass]
    cases strtok saved with
    | none => rfl
    | some p =>
      obtain ⟨token, rest⟩ := p
      by_cases h : strncasecmp (lit "oauth_signature") token 15 = 0
      · simp only [h, if_true]
      · simp only [h, if_false]
  | some t =>
    simp only [split_loop, split_pass]
    cases strtok t with
    | none => rfl
    | some p =>
      obtain ⟨token, rest⟩ := p
      by_cases h : strncasecmp (lit "oauth_signature") token 15 = 0
      · simp only [h, if_true]
      · simp only [h, if_false]

theorem split_loop_rest_passes :
    ∀ fuel s argv, (url_tokens_aux [] s).length < fuel →
      split_loop fuel { tmp := none, saved := s, argv := argv }
        = some (argv ++ (url_tokens_aux [] s).filter (fun t => !is_signature_token t)) := by
  intro fuel
  induction fuel with
  | zero => intro s argv h; omega
  | succ fuel ih =>
    intro s argv hlen
    cases hs : strtok s with
    | none => simp [split_loop, hs, strtok_none s hs]
    | some p =>
      obtain ⟨tok, rest⟩ := p
      obtain ⟨htoks, _, _, _⟩ := strtok_some s tok rest hs
      rw [htoks, List.length_cons] at hlen
      simp only [split_loop, hs, Option.map_none']
      rw [htoks, List.filter_cons]
      by_cases hd : is_signature_token tok = true
      · rw [if_pos ((is_signature_token_iff tok).mpr hd), ih rest argv (by omega)]
        simp [hd]
      · rw [if_neg (fun h => hd ((is_signature_token_iff tok).mp h)),
          ih rest (argv ++ [tok]) (by omega)]
        simp [hd]

/-- When the first token of the URL does not begin with `oauth_signature` (or
there is no token), the loop of `split_url_parameters` ends within one pass
per token and a last pass in which `strtok` returns NULL. -/
theorem split_loop_passes (url : List Nat) (fuel : Nat)
    (hfirst : ∀ t, (url_tokens url).head? = some t → is_signature_token t = false)
    (hfuel : (url_tokens url).length + 1 ≤ fuel) :
    split_loop fuel (split_init url)
      = some ((url_tokens url).filter (fun t => !is_signature_token t)) := by
  obtain ⟨fuel, rfl⟩ : ∃ f, fuel = f + 1 := ⟨fuel - 1, by omega⟩
  unfold url_tokens at hfirst hfuel ⊢
  cases hs : strtok (cstr url) with
  | none =>
    rw [strtok_none _ hs]
    simp [split_loop, split_init, hs]
  | some p =>
    obtain ⟨tok, rest⟩ := p
    obtain ⟨htoks, _, _, _⟩ := strtok_some _ tok rest hs
    rw [htoks] at hfirst hfuel ⊢
    have hd : is_signature_token tok = false := hfirst tok rfl
    simp only [List.length_cons] at hfuel
    simp only [split_loop, split_init, hs,
      if_neg (fun h => by rw [(is_signature_token_iff tok).mp h] at hd; simp at hd)]
    rw [split_loop_rest_passes fuel rest _ (by omega), List.filter_cons]
    simp [hd]

/-- C22 (the code at the failing input). On the URL `oauth_signature=1&b=2`
the first pass of the loop of `split_url_parameters` drops the token
`oauth_signature=1` and leaves `tmp` at the start of the buffer; every later
pass reads that same token again and leaves the variables as they were, so
the loop does not advance and never ends, whatever number of passes is
allowed. -/
theorem split_pass_not_advancing :
    split_pass (split_init (lit "oauth_signature=1&b=2"))
        = some { tmp := some (lit "oauth_signature=1"), saved := lit "b=2", argv := [] } ∧
      split_pass { tmp := some (lit "oauth_signature=1"), saved := lit "b=2", argv := [] }
        = some { tmp := some (lit "oauth_signature=1"), saved := [], argv := [] } ∧
      split_pass { tmp := some (lit "oauth_signature=1"), saved := [], argv := [] }
        = some { tmp := some (lit "oauth_signature=1"), saved := [], argv := [] } ∧
      (∀ fuel, split_loop fuel (split_init (lit "oauth_signature=1&b=2")) = none) ∧
      url_tokens (lit "oauth_signature=1&b=2") = [lit "oauth_signature=1", lit "b=2"] := by
  refine ⟨by decide, by decide, by decide, fun fuel => ?_, by decide⟩
  exact split_loop_stuck (lit "oauth_signature=1") (by decide) fuel _ _ _ (lit "b=2") (by decide)

/-! ## The order of the parameters in the signing base string -/

/-- C21 (the code at the failing input). For the URL `http://h/p?a=2&a1=1` the
sorted array, and with it the signing base string, has the parameter named
`a1` before the parameter named `a`, although `a` precedes `a1` in byte-wise
order: the tokens are compared whole, and in `a1=1` the `1` is smaller than
the `=` of `a=2`. -/
theorem sign_sorted_by_token :
    sign_argv (lit "abc123") 1000000000 (lit "http://h/p?a=2&a1=1") .OA_HMAC
        (some (lit "ck")) none
      = some [lit "http://h/p", lit "a1=1", lit "a=2", lit "oauth_consumer_key=ck",
          lit "oauth_nonce=abc123", lit "oauth_signature_method=HMAC_SHA1",
          lit "oauth_timestamp=1000000000", lit "oauth_version=1.0"] ∧
    (sign_argv (lit "abc123") 1000000000 (lit "http://h/p?a=2&a1=1") .OA_HMAC
        (some (lit "ck")) none).map (sign_odat false)
      = some (lit "GET&http%3A%2F%2Fh%2Fp&a1%3D1%26a%3D2%26oauth_consumer_key%3Dck%26oauth_nonce%3Dabc123%26oauth_signature_method%3DHMAC_SHA1%26oauth_timestamp%3D1000000000%26oauth_version%3D1.0") ∧
    param_name (lit "a1=1") = lit "a1" ∧ param_name (lit "a=2") = lit "a" ∧
    strcmp (lit "a") (lit "a1") < 0 ∧ cmpstringp (lit "a1=1") (lit "a=2") < 0 ∧
    ¬ List.Pairwise (fun x y => strcmp x y ≤ 0)
        ([lit "a1=1", lit "a=2", lit "oauth_consumer_key=ck", lit "oauth_nonce=abc123",
          lit "oauth_signature_method=HMAC_SHA1", lit "oauth_timestamp=1000000000",
          lit "oauth_version=1.0"].map param_name) := by
  decide!

/-! ## The buffer `oarg` -/

theorem snprintf_oarg_of_fit (text : List Nat) (h : text.length ≤ 1023) :
    snprintf_oarg text = text :=
  List.take_of_length_le h

/-- When the formatted parameters fit the 1023 characters `snprintf` can store
in `oarg`, the elements `oauth_sign_url` adds are the full texts. -/
theorem oauth_args_of_fit (nonce : List Nat) (now : Int) (method : OAuthMethod)
    (c_key t_key : Option (List Nat))
    (hc : (lit "oauth_consumer_key=" ++ url_escape c_key).length ≤ 1023)
    (ht : (lit "oauth_token=" ++ url_escape t_key).length ≤ 1023) :
    lit "oauth_consumer_key=" ++ url_escape c_key ∈ oauth_args nonce now method c_key t_key ∧
      (has_token_key t_key = true →
        lit "oauth_token=" ++ url_escape t_key ∈ oauth_args nonce now method c_key t_key) := by
  constructor
  · unfold oauth_args
    rw [snprintf_oarg_of_fit _ hc]
    simp
  · intro hk
    cases t_key with
    | none => simp [has_token_key] at hk
    | some t =>
      have hne : cstr t ≠ [] := by simpa [has_token_key] using hk
      have hpos : 0 < (cstr t).length := List.length_pos.mpr hne
      unfold oauth_args
      simp only [strlen, gt_iff_lt, hpos, if_true]
      rw [snprintf_oarg_of_fit _ ht]
      simp

/-- C24 (the code at the failing input). For a consumer key of 1005 letters
`a` the element added for it is cut by `snprintf` to the 1023 characters that
fit `oarg`: it carries 1004 letters, while `oauth_consumer_key=` followed by
`url_escape(c_key)` has 1024 characters and carries all 1005. -/
theorem oauth_args_consumer_key_cut :
    (oauth_args (lit "abc123") 1000000000 .OA_HMAC (some (List.replicate 1005 97)) none).getD 2 []
        = lit "oauth_consumer_key=" ++ List.replicate 1004 97 ∧
      lit "oauth_consumer_key=" ++ url_escape (some (List.replicate 1005 97))
        = lit "oauth_consumer_key=" ++ List.replicate 1005 97 ∧
      (oauth_args (lit "abc123") 1000000000 .OA_HMAC (some (List.replicate 1005 97))
          none).getD 2 []
        ≠ lit "oauth_consumer_key=" ++ url_escape (some (List.replicate 1005 97)) ∧
      lit "oauth_consumer_key=" ++ url_escape (some (List.replicate 1005 97))
        ∉ oauth_args (lit "abc123") 1000000000 .OA_HMAC (some (List.replicate 1005 97)) none := by
  decide!

end OAuth
